import Mathlib

/-!
# specs-latest: the documentation-site orchestrator of `main.go`

A shallow embedding of `processConfig` / `processSpec` and of the Go library
calls they make, followed by theorems about them.

The program is sequential orchestration of operating-system calls, so it is
embedded as explicit state passing over a `World` (working directory, the set
of paths at which something exists, and the trace of operations issued so
far).  What the program cannot decide itself (whether a call fails, what an
external command does to the filesystem) is supplied by an `Env` oracle, so
every theorem quantified over `Env` holds for every behaviour of the
operating system and of the external commands.  `log.Printf` output is not
part of the model; `log.Fatalf` is the `Outcome.fatal` result.
-/

namespace SpecsLatest

set_option maxRecDepth 100000

/-! ## Go library functions used by the program (Unix, ASCII separators) -/

namespace filepath

/-- Splitting of a path at every `/`; the result has one more item than the path has slashes. -/
def splitSlash : List Char → List (List Char)
  | [] => [[]]
  | c :: cs =>
    match splitSlash cs with
    | [] => [[]]
    | seg :: segs => if c = '/' then [] :: seg :: segs else (c :: seg) :: segs

/-- One step of the lexical processing done by Go's `filepath.Clean`: the stack holds the
kept path elements, last one first. -/
def cleanStep (rooted : Bool) (stack : List (List Char)) (seg : List Char) : List (List Char) :=
  if seg = [] ∨ seg = ['.'] then stack
  else if seg = ['.', '.'] then
    match stack with
    | [] => if rooted then [] else [seg]
    | top :: rest => if top = ['.', '.'] then seg :: stack else rest
  else seg :: stack

/-- Joining of path elements with single slashes (`strings.Join(elems, "/")`). -/
def joinSlash : List (List Char) → List Char
  | [] => []
  | [seg] => seg
  | seg :: rest => seg ++ '/' :: joinSlash rest

/-- Go's `filepath.Clean`: the shortest path name equivalent to `path` by purely lexical
processing (multiple slashes collapsed, `.` dropped, inner `..` resolved, `..` at the root
dropped); the empty path cleans to `.`. -/
def Clean (path : String) : String :=
  match path.data with
  | [] => "."
  | c :: cs =>
    let rooted : Bool := c = '/'
    let stack := (splitSlash (c :: cs)).foldl (cleanStep rooted) []
    let body := joinSlash stack.reverse
    let out := if rooted then '/' :: body else body
    if out = [] then "." else String.mk out

/-- Go's `filepath.Join`: leading empty elements are ignored, the rest is joined with
slashes and cleaned; joining nothing but empty elements gives the empty string. -/
def Join (elem : List String) : String :=
  match elem.dropWhile (fun e => e = "") with
  | [] => ""
  | rest => Clean (String.mk (joinSlash (rest.map String.data)))

/-- Removal of trailing slashes, on the reversed path. -/
def dropSlashes : List Char → List Char
  | [] => []
  | c :: cs => if c = '/' then dropSlashes cs else c :: cs

/-- Go's `filepath.Base`: the last element of the path, trailing slashes removed first;
`.` for the empty path and `/` for a path of slashes only. -/
def Base (path : String) : String :=
  if path = "" then "."
  else
    let stripped := dropSlashes path.data.reverse
    let last := (stripped.takeWhile (fun c => c ≠ '/')).reverse
    if last = [] then "/" else String.mk last

end filepath

namespace strings

/-- Go's `strings.TrimSuffix`: `s` without the trailing `suffix` when it ends with it,
`s` unchanged otherwise. -/
def TrimSuffix (s suffix : String) : String :=
  if suffix.data.reverse.isPrefixOf s.data.reverse then
    String.mk (s.data.take (s.data.length - suffix.data.length))
  else s

end strings

/-! ## Data model (`main.go`, lines 18-34) -/

/-- One release entry of the configuration. -/
structure specsConfigRelease where
  Commit : String
  Tag : String
  Branch : String
deriving DecidableEq

/-- One spec entry of the configuration. -/
structure specsConfigSpec where
  Name : String
  Remote : String
  Releases : List specsConfigRelease
deriving DecidableEq

/-- The configuration: the specs in declaration order. -/
structure specsConfig where
  Specs : List specsConfigSpec
deriving DecidableEq

/-! ## The world the program runs in -/

/-- An operation issued by the program, with what came back.  `stat` holds the answer of
`os.IsNotExist`; `exec` is one `exec.Command(argv...).Run()`, recorded with the directory it
ran in; `rename` also records whether something existed at the destination when the call
was made. -/
inductive Event where
  | stat (path : String) (notExist : Bool)
  | mkdirAll (path : String) (ok : Bool)
  | chdir (path : String) (ok : Bool)
  | exec (dir : String) (argv : List String) (ok : Bool)
  | remove (path : String) (ok : Bool)
  | rename (src dst : String) (dstExisted : Bool) (ok : Bool)
  | writeFile (path : String) (content : String) (ok : Bool)
deriving DecidableEq

/-- The state of the process and of the filesystem: the working directory, the paths at
which something exists, and the operations issued so far (oldest first). -/
structure World where
  cwd : String
  fs : List String
  trace : List Event
deriving DecidableEq

/-- Everything the program does not decide: whether each operating-system call succeeds,
and the exit status and filesystem effect of each external command.  `statErr` says that
`os.Stat` fails with an error other than "does not exist" (name too long, not a directory,
permission denied), whatever is or is not at the path. -/
structure Env where
  getwdOk : World → Bool
  statErr : World → String → Bool
  mkdirAllOk : World → String → Bool
  chdirOk : World → String → Bool
  exec : World → List String → Bool × List String
  removeOk : World → String → Bool
  renameOk : World → String → String → Bool
  writeFileOk : World → String → Bool

/-- The call sites of `log.Fatalf` reachable from `processConfig`. -/
inductive Fatal where
  | getwd
  | cmdRun
  | invalidConfig (name : String) (index : Nat)
  | rename
  | writeFile
deriving DecidableEq

/-- Result of a step: a value, or the process was terminated by `log.Fatalf`. -/
inductive Outcome (α : Type) where
  | ok (a : α)
  | fatal (f : Fatal)
deriving DecidableEq

/-- Appends an operation to the trace. -/
def World.emit (w : World) (e : Event) : World :=
  { w with trace := w.trace ++ [e] }

/-- The rooted paths made of the first one, two, ... of the given elements below `base`. -/
def ancestorsFrom (base : List Char) : List (List Char) → List String
  | [] => []
  | seg :: rest =>
    let p := base ++ '/' :: seg
    String.mk p :: ancestorsFrom p rest

/-- The directories `os.MkdirAll path` makes sure exist, for a rooted `path`: its parents,
outermost first, and `path` itself. -/
def ancestors (path : String) : List String :=
  ancestorsFrom [] ((filepath.splitSlash path.data).filter (fun seg => seg ≠ []))

/-- The call `os.Stat(path)` followed by `os.IsNotExist(err)`: the answer is `true` only
when nothing exists at the path and `os.Stat` fails with that very error; any other error
of `os.Stat` gives `false`, as does success. -/
def osStat (env : Env) (path : String) (w : World) : Bool × World :=
  let notExist : Bool := decide (path ∉ w.fs) && !env.statErr w path
  (notExist, w.emit (.stat path notExist))

/-- The call `os.MkdirAll(path, 0755)`; the program never looks at its error. -/
def osMkdirAll (env : Env) (path : String) (w : World) : World :=
  if env.mkdirAllOk w path then
    { w with fs := w.fs ++ ancestors path }.emit (.mkdirAll path true)
  else w.emit (.mkdirAll path false)

/-- The call `os.Chdir(path)`, always made with a rooted path; the program never looks at
its error. -/
def osChdir (env : Env) (path : String) (w : World) : World :=
  if env.chdirOk w path then
    { w with cwd := path }.emit (.chdir path true)
  else w.emit (.chdir path false)

/-- One `cmd.Run()`: the exit status and the filesystem left by the command. -/
def osExec (env : Env) (argv : List String) (w : World) : Bool × World :=
  let r := env.exec w argv
  (r.1, { w with fs := r.2 }.emit (.exec w.cwd argv r.1))

/-- The call `os.Remove(name)` with a name relative to the working directory; the program
never looks at its error. -/
def osRemove (env : Env) (name : String) (w : World) : World :=
  let p := filepath.Join [w.cwd, name]
  if env.removeOk w p then
    { w with fs := w.fs.filter (fun q => q ≠ p) }.emit (.remove p true)
  else w.emit (.remove p false)

/-- The call `os.Rename(src, dst)` with `src` relative to the working directory and `dst`
rooted.  The event records whether something existed at `dst` when the call was made. -/
def osRename (env : Env) (src dst : String) (w : World) : Bool × World :=
  let s := filepath.Join [w.cwd, src]
  let existed : Bool := decide (dst ∈ w.fs)
  if env.renameOk w s dst then
    (true, { w with fs := dst :: w.fs.filter (fun q => q ≠ s) }.emit (.rename s dst existed true))
  else (false, w.emit (.rename s dst existed false))

/-- The call `os.WriteFile(path, content, 0644)`. -/
def osWriteFile (env : Env) (path content : String) (w : World) : Bool × World :=
  if env.writeFileOk w path then
    (true, { w with fs := w.fs ++ [path] }.emit (.writeFile path content true))
  else (false, w.emit (.writeFile path content false))

/-! ## The program -/

/-- The function `absPath` (lines 48-59).  `os.Getwd` yields a rooted path, for which
`filepath.Abs` is `filepath.Clean`. -/
def absPath (env : Env) (w : World) : Outcome String × World :=
  if env.getwdOk w then (.ok (filepath.Clean w.cwd), w) else (.fatal .getwd, w)

/-- Lines 110-116 of `processSpec`: the checkout target of a release, `none` where the
program calls `log.Fatalf`. -/
def checkoutTarget (release : specsConfigRelease) : Option String :=
  let checkoutTarget := release.Tag
  if checkoutTarget = "" then
    let checkoutTarget := release.Commit
    if checkoutTarget = "" then none else some checkoutTarget
  else some checkoutTarget

/-- The `%s` of the `image` pipeline splits its format string in two. -/
def imagePipeline (checkoutTarget : String) : String :=
  "cat Makefile | sed 's/-it/-i/g' | sed 's|-f gfm|-f gfm --metadata title=\"Open Container Initiative Image Format Specification\"|g' > Makefile.new && (make -f Makefile.new docs || (cd .tool/ && go get github.com/opencontainers/image-spec/specs-go@"
    ++ checkoutTarget ++ " && cd ../ && make -f Makefile.new docs))"

/-- The `distribution` pipeline (line 152). -/
def distributionPipeline (checkoutTarget : String) : String :=
  "cat Makefile | sed 's/-it/-i/g' | sed 's/go mod init \\&\\& \\\\/\\(rm -f go.* \\&\\& go mod init main \\)\\&\\& \\\\/g' | sed 's|-f gfm|-f gfm --metadata title=\"Open Container Initiative Distribution Specification\"|g'> Makefile.new && (make -f Makefile.new docs || (cd .tool/ && go get github.com/opencontainers/distribution-spec/specs-go@"
    ++ checkoutTarget ++ " && cd ../ && make -f Makefile.new docs)) && rm -f output/.gitkeep"

/-- The `runtime` pipeline (line 154). -/
def runtimePipeline (checkoutTarget : String) : String :=
  "cat Makefile | sed 's/-it/-i/g' | sed 's/go mod init \\\\/go mod init main \\\\/g' > Makefile.new && (make -f Makefile.new docs || (cd .tool/ && go get github.com/opencontainers/runtime-spec/specs-go@"
    ++ checkoutTarget ++ " && cd ../ && make -f Makefile.new docs))"

/-- Lines 144-155 of `processSpec`: the argument vector of the build command. -/
def buildCommand (name checkoutTarget : String) : List String :=
  let cmd := ["make", "docs"]
  if name = "image" then ["sh", "-c", imagePipeline checkoutTarget]
  else if name = "distribution" then ["sh", "-c", distributionPipeline checkoutTarget]
  else if name = "runtime" then ["sh", "-c", runtimePipeline checkoutTarget]
  else cmd

/-- The list item appended for a release (line 117). -/
def listItem (checkoutTarget : String) : String :=
  "<li><div><h3>" ++ checkoutTarget ++ "</h3><p>release date: TODO</p></div></li>\n"

/-- Lines 125-169 of `processSpec`: checkout, clean, build and relocation of one release
whose destination `specOutputDir` was found absent. -/
def buildRelease (env : Env) (name specWorkspace specOutputDir target : String) (w : World) :
    Outcome Unit × World :=
  let w := osChdir env specWorkspace w
  let checkout := osExec env ["git", "checkout", "-f", target] w
  if checkout.1 = false then (.fatal .cmdRun, checkout.2)
  else
    let clean := osExec env ["git", "clean", "-f", target] checkout.2
    if clean.1 = false then (.fatal .cmdRun, clean.2)
    else
      let build := osExec env (buildCommand name target) clean.2
      let w := osRemove env "Makefile.new" build.2
      if build.1 = false then (.fatal .cmdRun, w)
      else
        let moved := osRename env "output/" specOutputDir w
        if moved.1 = false then (.fatal .rename, moved.2) else (.ok (), moved.2)

/-- The body of the release loop of `processSpec` (lines 108-169) for the release at index
`i`; `s` is the HTML accumulated so far. -/
def processRelease (env : Env) (name specWorkspace specOutputParentDir : String) (i : Nat)
    (release : specsConfigRelease) (s : String) (w : World) : Outcome String × World :=
  match checkoutTarget release with
  | none => (.fatal (.invalidConfig name i), w)
  | some target =>
    let s := s ++ listItem target
    let specOutputDir := filepath.Join [specOutputParentDir, target]
    let looked := osStat env specOutputDir w
    if looked.1 = false then (.ok s, looked.2)
    else
      match buildRelease env name specWorkspace specOutputDir target looked.2 with
      | (.fatal f, w) => (.fatal f, w)
      | (.ok _, w) => (.ok s, w)

/-- The release loop of `processSpec` (line 107), given the releases still to process in
processing order: the Go loop runs `i` from `len(Releases) - 1` down to `0`, so it is
called on the reversed release list and the index of the head is the length of the rest. -/
def releaseLoop (env : Env) (name specWorkspace specOutputParentDir : String) :
    List specsConfigRelease → String → World → Outcome String × World
  | [], s, w => (.ok s, w)
  | release :: rest, s, w =>
    match processRelease env name specWorkspace specOutputParentDir rest.length release s w with
    | (.fatal f, w) => (.fatal f, w)
    | (.ok s, w) => releaseLoop env name specWorkspace specOutputParentDir rest s w

/-- Lines 95-103 of `processSpec`: clone the remote unless something exists at the path. -/
def ensureCloned (env : Env) (remote specWorkspace : String) (w : World) :
    Outcome Unit × World :=
  let looked := osStat env specWorkspace w
  if looked.1 = false then (.ok (), looked.2)
  else
    let clone := osExec env ["git", "clone", "--depth=1000000", remote, specWorkspace] looked.2
    if clone.1 = false then (.fatal .cmdRun, clone.2) else (.ok (), clone.2)

/-- Lines 93-94 of `processSpec`: the path of the local clone, given the directory
`absPath` reported. -/
def specWorkspacePath (currentDir : String) (spec : specsConfigSpec) : String :=
  let base := strings.TrimSuffix (filepath.Base spec.Remote) ".git"
  filepath.Join [currentDir, base]

/-- Line 104 of `processSpec`: the directory holding the outputs of the spec. -/
def specOutputParentPath (currentDir : String) (spec : specsConfigSpec) : String :=
  filepath.Join [currentDir, "..", "specs", spec.Name]

/-- The function `processSpec` (lines 89-176). -/
def processSpec (env : Env) (spec : specsConfigSpec) (w : World) : Outcome String × World :=
  let s := "<hr/><h2>" ++ spec.Name ++ "</h2>\n"
  match absPath env w with
  | (.fatal f, w) => (.fatal f, w)
  | (.ok currentDir, w) =>
    let specWorkspace := specWorkspacePath currentDir spec
    match ensureCloned env spec.Remote specWorkspace w with
    | (.fatal f, w) => (.fatal f, w)
    | (.ok _, w) =>
      let specOutputParentDir := specOutputParentPath currentDir spec
      let w := osMkdirAll env specOutputParentDir w
      let s := s ++ "<ul>"
      match releaseLoop env spec.Name specWorkspace specOutputParentDir spec.Releases.reverse s w with
      | (.fatal f, w) => (.fatal f, w)
      | (.ok s, w) =>
        let s := s ++ "</ul>"
        let w := osChdir env currentDir w
        (.ok s, w)

/-- The fixed text before the fragments (lines 66-73). -/
def indexHeader : String :=
  "<html>\n<head>\n<title>OCI specs latest</title>\n</head>\n<body style=\"background:#e8e9ff;padding: 20px;font-family: monospace\">\n<div style=\"width:100%px; max-width:700px;text-align:left;padding: 20px;border:1px solid #c7c2c2; background:white\">\n<h1>OCI specs latest</h1>\n"

/-- The fixed text after the fragments (lines 79-82). -/
def indexFooter : String :=
  "</div>\n</body>\n</html>\n"

/-- The spec loop of `processConfig` (lines 74-77); `s` is the document so far. -/
def specLoop (env : Env) (gitWorkspace : String) :
    List specsConfigSpec → String → World → Outcome String × World
  | [], s, w => (.ok s, w)
  | spec :: rest, s, w =>
    let w := osChdir env gitWorkspace w
    match processSpec env spec w with
    | (.fatal f, w) => (.fatal f, w)
    | (.ok frag, w) => specLoop env gitWorkspace rest (s ++ frag) w

/-- The function `processConfig` (lines 61-87). -/
def processConfig (env : Env) (config : specsConfig) (w : World) : Outcome Unit × World :=
  match absPath env w with
  | (.fatal f, w) => (.fatal f, w)
  | (.ok currentDir, w) =>
    let gitWorkspace := filepath.Join [currentDir, "docs", "git-workspace"]
    let w := osMkdirAll env gitWorkspace w
    match specLoop env gitWorkspace config.Specs indexHeader w with
    | (.fatal f, w) => (.fatal f, w)
    | (.ok s, w) =>
      let w := osChdir env currentDir w
      let s := s ++ indexFooter
      let indexFile := filepath.Join [currentDir, "docs", "index.html"]
      let wrote := osWriteFile env indexFile s w
      if wrote.1 = false then (.fatal .writeFile, wrote.2) else (.ok (), wrote.2)

/-! ## Reading a trace -/

/-- The operations issued between world `w` and the later world `w'`. -/
def World.since (w' w : World) : List Event :=
  w'.trace.drop w.trace.length

/-- The argument vectors of the external commands run, in order. -/
def commands : List Event → List (List String)
  | [] => []
  | .exec _ argv _ :: rest => argv :: commands rest
  | _ :: rest => commands rest

/-- A build command: `make ...` or `sh ...` (every other command the program runs is `git`). -/
def isBuild (argv : List String) : Bool :=
  argv.head? = some "make" || argv.head? = some "sh"

/-- A clone command: `git clone ...`. -/
def isClone (argv : List String) : Bool :=
  argv.take 2 = ["git", "clone"]

/-- The build commands run, in order. -/
def builds (tr : List Event) : List (List String) :=
  (commands tr).filter isBuild

/-- The clone commands run, in order. -/
def clones (tr : List Event) : List (List String) :=
  (commands tr).filter isClone

/-- The paths examined with `os.Stat`, each with the answer `os.IsNotExist` gave. -/
def examined : List Event → List (String × Bool)
  | [] => []
  | .stat path notExist :: rest => (path, notExist) :: examined rest
  | _ :: rest => examined rest

/-- The destinations of the `os.Rename` calls made, in order. -/
def relocations : List Event → List String
  | [] => []
  | .rename _ dst _ _ :: rest => dst :: relocations rest
  | _ :: rest => relocations rest

/-- The files written with `os.WriteFile`: path and content. -/
def written : List Event → List (String × String)
  | [] => []
  | .writeFile path content _ :: rest => (path, content) :: written rest
  | _ :: rest => written rest

/-- The operation reported an error that the program checks: a command that exited with
failure, a failed rename, a failed write. -/
def Event.failed : Event → Bool
  | .exec _ _ ok => !ok
  | .rename _ _ _ ok => !ok
  | .writeFile _ _ ok => !ok
  | _ => false

/-- The `log.Fatalf` call that follows the failure of the operation. -/
def Event.reason : Event → Fatal
  | .rename _ _ _ _ => .rename
  | .writeFile _ _ _ => .writeFile
  | _ => .cmdRun

/-- The operation is an external command that exited with failure. -/
def Event.commandFailed : Event → Bool
  | .exec _ _ ok => !ok
  | _ => false

/-- The operation is an `os.Rename` onto a path at which something existed. -/
def Event.ontoExisting : Event → Bool
  | .rename _ _ existed _ => existed
  | _ => false

/-- The operation is an `os.Remove`. -/
def Event.isRemove : Event → Bool
  | .remove _ _ => true
  | _ => false

/-- The run was stopped with `f` by a failed operation: everything before it succeeded and
nothing but `os.Remove` came after it. -/
def Halted (d : List Event) (f : Fatal) : Prop :=
  ∃ pre x tail, d = pre ++ x :: tail ∧ (∀ e ∈ pre, e.failed = false) ∧ x.failed = true ∧
    x.reason = f ∧ ∀ e ∈ tail, e.isRemove = true

/-- Why a step stopped the process, `none` when it did not. -/
def Outcome.reason {α : Type} : Outcome α → Option Fatal
  | .ok _ => none
  | .fatal f => some f

/-- Rules a relation between the world before a step, the way the step ended and the world
after it has to obey for it to hold of the release loop: it is closed under sequencing and
holds of the steps of the loop body. -/
structure ReleaseRules (env : Env) (R : World → Option Fatal → World → Prop) : Prop where
  refl : ∀ w, R w none w
  seq : ∀ w w1 w2 o, R w none w1 → R w1 o w2 → R w o w2
  invalid : ∀ w name i, R w (some (.invalidConfig name i)) w
  stat : ∀ p w, R w none (osStat env p w).2
  build : ∀ name sw dst t w, dst ∉ w.fs →
    R w (buildRelease env name sw dst t w).1.reason (buildRelease env name sw dst t w).2

/-- Rules for a relation to hold of `processSpec` and of the spec loop. -/
structure SpecRules (env : Env) (R : World → Option Fatal → World → Prop)
    extends ReleaseRules env R : Prop where
  getwd : ∀ w, R w (some .getwd) w
  mkdirAll : ∀ p w, R w none (osMkdirAll env p w)
  chdir : ∀ p w, R w none (osChdir env p w)
  clone : ∀ remote sw w,
    R w (ensureCloned env remote sw w).1.reason (ensureCloned env remote sw w).2

/-- Rules for a relation to hold of a whole run of `processConfig`. -/
structure RunRules (env : Env) (R : World → Option Fatal → World → Prop)
    extends SpecRules env R : Prop where
  write : ∀ p c w,
    R w (if (osWriteFile env p c w).1 = false then some .writeFile else none)
      (osWriteFile env p c w).2

/-! ## The index document as the specification describes it -/

/-- The fragment of one spec: the heading, then the list items of the releases, last
declared first, wrapped in `<ul>`. -/
def specFragment (spec : specsConfigSpec) : String :=
  "<hr/><h2>" ++ spec.Name ++ "</h2>\n<ul>"
    ++ String.join ((spec.Releases.reverse.filterMap checkoutTarget).map listItem) ++ "</ul>"

/-- The index document: fixed header, the fragments of the specs in declared order, fixed
footer. -/
def indexDocument (config : specsConfig) : String :=
  indexHeader ++ String.join (config.Specs.map specFragment) ++ indexFooter

/-! ## Relations between the worlds before and after a step -/

/-- The process was stopped by the environment, not by the configuration. -/
def Fatal.external : Fatal → Bool
  | .cmdRun => true
  | .rename => true
  | .writeFile => true
  | _ => false

/-- The shape of every run: the trace only grows; a step that returns issued no failed
operation; a step that stops the process either stops on the configuration or on the
working directory, nothing having failed, or is halted by the first failed operation. -/
def Shape (w : World) (o : Option Fatal) (w' : World) : Prop :=
  ∃ d, w'.trace = w.trace ++ d ∧
    match o with
    | none => ∀ e ∈ d, e.failed = false
    | some f => ((∀ e ∈ d, e.failed = false) ∧ f.external = false) ∨ Halted d f

/-- Every operation issued by the step satisfies `P`. -/
def Always (P : Event → Prop) (w : World) (_o : Option Fatal) (w' : World) : Prop :=
  ∃ d, w'.trace = w.trace ++ d ∧ ∀ e ∈ d, P e

/-- An operation that may occur inside `processSpec` after the clone: no clone, no write. -/
def loopEvent (e : Event) : Prop :=
  match e with
  | .exec _ argv _ => isClone argv = false
  | .writeFile _ _ _ => False
  | _ => True

/-- An operation that may occur before the index is written. -/
def noWrite (e : Event) : Prop :=
  match e with
  | .writeFile _ _ _ => False
  | _ => True

/-- A new process started in the directory `w0` was started in, on the filesystem left in
`w1`. -/
def restart (w0 w1 : World) : World :=
  { cwd := w0.cwd, fs := w1.fs, trace := [] }

/-- None of the commands run for a release after its destination was examined (`git
checkout`, `git clean`, the build: every command but `git clone`) creates one of the paths
`D`. -/
def NoCommandCreates (env : Env) (D : List String) : Prop :=
  ∀ w argv p, isClone argv = false → p ∈ D → p ∈ (env.exec w argv).2 → p ∈ w.fs

/-- No build command creates one of the paths `D`. -/
def NoBuildCreates (env : Env) (D : List String) : Prop :=
  ∀ w argv p, isBuild argv = true → p ∈ D → p ∈ (env.exec w argv).2 → p ∈ w.fs

/-- Nothing takes one of the paths `D` away: no external command deletes it, and it is
neither what `os.Remove` removes nor what `os.Rename` moves away. -/
def NothingRemoves (env : Env) (D : List String) : Prop :=
  (∀ w argv p, p ∈ D → p ∈ w.fs → p ∈ (env.exec w argv).2) ∧
    (∀ w p, p ∈ D → env.removeOk w p = false) ∧
    (∀ w src dst, src ∈ D → env.renameOk w src dst = false)

/-- A relocation onto one of the paths `D` found nothing there. -/
def freshTarget (D : List String) (e : Event) : Prop :=
  match e with
  | .rename _ dst existed _ => dst ∈ D → existed = false
  | _ => True

/-- What a step does to the paths `D`: those that existed still exist; those it relocated
to did not exist before it and, if it returned, exist after it; and it relocated to none of
them twice. -/
def Kept (D : List String) (w : World) (o : Option Fatal) (w' : World) : Prop :=
  ∃ d, w'.trace = w.trace ++ d ∧
    (∀ p ∈ D, p ∈ w.fs → p ∈ w'.fs) ∧
    (∀ p ∈ relocations d, p ∈ D → p ∉ w.fs) ∧
    (o = none → ∀ p ∈ relocations d, p ∈ D → p ∈ w'.fs) ∧
    ((∀ p ∈ relocations d, p ∈ D) → (relocations d).Nodup)

/-- Every build that exited with success is followed at once by the removal of
`Makefile.new` and the relocation of its output. -/
def builtThenMoved : List Event → Bool
  | [] => true
  | .exec _ argv true :: rest =>
    (!isBuild argv ||
      match rest with
      | .remove _ _ :: .rename _ _ _ _ :: _ => true
      | _ => false) && builtThenMoved rest
  | _ :: rest => builtThenMoved rest

/-- The builds of the step are each followed by their relocation. -/
def Moved (w : World) (_o : Option Fatal) (w' : World) : Prop :=
  ∃ d, w'.trace = w.trace ++ d ∧ builtThenMoved d = true

/-! ## Example environments, configurations and worlds -/

/-- The published tree of the example site: the paths below `/site/docs/specs/`. -/
def published (p : String) : Bool :=
  "/site/docs/specs/".data.isPrefixOf p.data

/-- What the commands of `calmEnv` leave behind: `git clone` its target directory, a build
the directory `output` in the directory it runs in, the other commands nothing. -/
def produced (w : World) (argv : List String) : List String :=
  match argv with
  | ["git", "clone", _, _, dir] => [dir]
  | "git" :: _ => []
  | _ => [filepath.Join [w.cwd, "output"]]

/-- An environment in which nothing fails: the commands create what `produced` says, except
that no command touches the published tree; `os.Remove` and `os.Rename` succeed when what
they take away exists and is not in the published tree. -/
def calmEnv : Env where
  getwdOk _ := true
  statErr _ _ := false
  mkdirAllOk _ _ := true
  chdirOk _ _ := true
  exec w argv := (true, w.fs ++ (produced w argv).filter (fun p => !published p))
  removeOk w p := decide (p ∈ w.fs) && !published p
  renameOk w src _ := decide (src ∈ w.fs) && !published src
  writeFileOk _ _ := true

/-- The environment `calmEnv`, except that every build command exits with failure. -/
def failingBuildEnv : Env :=
  { calmEnv with
    exec := fun w argv => if isBuild argv then (false, w.fs) else calmEnv.exec w argv }

/-- The environment `calmEnv`, except that the output directory of the image spec cannot
be created and the clone cannot be entered: `os.MkdirAll` of `/site/docs/specs/image` fails,
so does `os.Chdir` into the clone, and nothing can be moved into the missing directory. -/
def brokenDirsEnv : Env :=
  { calmEnv with
    mkdirAllOk := fun _ p => decide (p ≠ "/site/docs/specs/image")
    chdirOk := fun _ p => decide (p ≠ "/site/docs/git-workspace/image-spec")
    renameOk := fun _ _ _ => false }

/-- The environment `calmEnv`, except that no directory can be created or entered and
nothing can be moved: `os.MkdirAll`, `os.Chdir` and `os.Rename` always fail. -/
def noDirsEnv : Env :=
  { calmEnv with
    mkdirAllOk := fun _ _ => false
    chdirOk := fun _ _ => false
    renameOk := fun _ _ _ => false }

/-- A name is too long for the filesystem when its last element has more than 255
characters. -/
def nameTooLong (p : String) : Bool :=
  decide (255 < (filepath.Base p).data.length)

/-- The environment `calmEnv`, except that `os.Stat` fails on a name that is too long. -/
def longNameEnv : Env :=
  { calmEnv with statErr := fun _ p => nameTooLong p }

/-- The environment `calmEnv`, except that a build exits with success without leaving an
`output` directory. -/
def noOutputEnv : Env :=
  { calmEnv with
    exec := fun w argv => if isBuild argv then (true, w.fs) else calmEnv.exec w argv }

/-- The environment `calmEnv`, except that `os.Getwd` fails. -/
def noGetwdEnv : Env :=
  { calmEnv with getwdOk := fun _ => false }

/-- The environment `calmEnv`, except that `git checkout` wipes the published tree. -/
def wipingEnv : Env :=
  { calmEnv with
    exec := fun w argv =>
      if argv.take 2 = ["git", "checkout"] then (true, w.fs.filter (fun p => !published p))
      else calmEnv.exec w argv }

/-- The environment `calmEnv`, except that `git checkout -f <target>` leaves something at
the destination of the image release `<target>`. -/
def plantingEnv : Env :=
  { calmEnv with
    exec := fun w argv =>
      match argv with
      | ["git", "checkout", _, target] => (true, w.fs ++ ["/site/docs/specs/image/" ++ target])
      | _ => calmEnv.exec w argv }

/-- A release given by its tag. -/
def tagged (tag : String) : specsConfigRelease :=
  { Commit := "", Tag := tag, Branch := "" }

/-- The image spec with releases `v1`, `v2`, `v3` declared oldest first. -/
def imageSpec : specsConfigSpec :=
  { Name := "image"
    Remote := "https://github.com/opencontainers/image-spec.git"
    Releases := [tagged "v1", tagged "v2", tagged "v3"] }

/-- A configuration of two specs; the second lists one checkout target twice, once as a
tag and once as a commit. -/
def sampleConfig : specsConfig :=
  { Specs :=
      [imageSpec,
       { Name := "runtime"
         Remote := "https://github.com/opencontainers/runtime-spec"
         Releases := [tagged "v1.0.0", { Commit := "v1.0.0", Tag := "", Branch := "main" }] }] }

/-- A fresh process started in `/site`, where nothing has been built yet. -/
def freshWorld : World :=
  { cwd := "/site", fs := ["/site"], trace := [] }

/-- A process inside the git workspace where `v2` of the image spec is already published
and the clone is present. -/
def partlyBuiltWorld : World :=
  { cwd := "/site/docs/git-workspace"
    fs := ["/site", "/site/docs/git-workspace", "/site/docs/git-workspace/image-spec",
           "/site/docs/specs/image/v2"]
    trace := [] }

/-- The image spec with the release `v1` listed twice, around `v2`. -/
def repeatedSpec : specsConfigSpec :=
  { imageSpec with Releases := [tagged "v1", tagged "v2", tagged "v1"] }

/-- The configuration made of `repeatedSpec`. -/
def repeatedConfig : specsConfig :=
  { Specs := [repeatedSpec] }

/-- A fresh process started in `/site`, where `v2` of the image spec is published. -/
def publishedWorld : World :=
  { cwd := "/site", fs := ["/site", "/site/docs/specs/image/v2"], trace := [] }

/-- A name of 256 characters. -/
def longName : String :=
  String.mk (List.replicate 256 'a')

/-- A spec whose remote ends in a name of 256 characters. -/
def longNameSpec : specsConfigSpec :=
  { Name := "long", Remote := "https://example.org/" ++ longName, Releases := [tagged "v1"] }

/-- A spec with a release whose tag has 256 characters. -/
def longTagSpec : specsConfigSpec :=
  { imageSpec with Releases := [tagged longName] }

/-- A fresh process inside the git workspace, where nothing has been cloned or built. -/
def workspaceWorld : World :=
  { cwd := "/site/docs/git-workspace", fs := ["/site", "/site/docs/git-workspace"], trace := [] }

/-- A fresh process started in `/site` where something that is not a directory sits at the
path of the image-spec clone. -/
def blockedWorld : World :=
  { cwd := "/site", fs := ["/site", "/site/docs/git-workspace/image-spec"], trace := [] }

/-! ## Basic facts about the operations -/

@[simp] theorem trace_emit (w : World) (e : Event) : (w.emit e).trace = w.trace ++ [e] := rfl
@[simp] theorem fs_emit (w : World) (e : Event) : (w.emit e).fs = w.fs := rfl
@[simp] theorem cwd_emit (w : World) (e : Event) : (w.emit e).cwd = w.cwd := rfl

theorem since_of_prefix {w w' : World} (h : w.trace <+: w'.trace) :
    w'.trace = w.trace ++ w'.since w := by
  obtain ⟨d, hd⟩ := h
  simp [World.since, ← hd]

@[simp] theorem since_self (w : World) : w.since w = [] := by simp [World.since]

theorem since_eq {w w' : World} {d : List Event} (h : w'.trace = w.trace ++ d) :
    w'.since w = d := by
  simp [World.since, h]

theorem osStat_snd (env : Env) (p : String) (w : World) :
    (osStat env p w).2 = w.emit (.stat p (osStat env p w).1) := rfl

theorem osStat_absent {env : Env} {p : String} {w : World} (h : (osStat env p w).1 = true) :
    p ∉ w.fs := by
  simp only [osStat, Bool.and_eq_true, decide_eq_true_eq] at h
  exact h.1

theorem osStat_present (env : Env) {p : String} {w : World} (h : p ∈ w.fs) :
    (osStat env p w).1 = false := by
  simp [osStat, h]
@[simp] theorem osChdir_trace (env : Env) (p : String) (w : World) :
    (osChdir env p w).trace = w.trace ++ [.chdir p (env.chdirOk w p)] := by
  unfold osChdir; split <;> simp [*]
@[simp] theorem osChdir_fs (env : Env) (p : String) (w : World) :
    (osChdir env p w).fs = w.fs := by
  unfold osChdir; split <;> simp [*]
@[simp] theorem osMkdirAll_trace (env : Env) (p : String) (w : World) :
    (osMkdirAll env p w).trace = w.trace ++ [.mkdirAll p (env.mkdirAllOk w p)] := by
  unfold osMkdirAll; split <;> simp [*]
@[simp] theorem osMkdirAll_cwd (env : Env) (p : String) (w : World) :
    (osMkdirAll env p w).cwd = w.cwd := by
  unfold osMkdirAll; split <;> simp [*]
@[simp] theorem osExec_trace (env : Env) (argv : List String) (w : World) :
    (osExec env argv w).2.trace = w.trace ++ [.exec w.cwd argv (osExec env argv w).1] := rfl
@[simp] theorem osExec_fs (env : Env) (argv : List String) (w : World) :
    (osExec env argv w).2.fs = (env.exec w argv).2 := rfl
@[simp] theorem osExec_cwd (env : Env) (argv : List String) (w : World) :
    (osExec env argv w).2.cwd = w.cwd := rfl
@[simp] theorem osRemove_trace (env : Env) (n : String) (w : World) :
    (osRemove env n w).trace = w.trace ++
      [.remove (filepath.Join [w.cwd, n]) (env.removeOk w (filepath.Join [w.cwd, n]))] := by
  unfold osRemove; simp only []; split <;> simp [*]
@[simp] theorem osRemove_cwd (env : Env) (n : String) (w : World) :
    (osRemove env n w).cwd = w.cwd := by
  unfold osRemove; simp only []; split <;> simp [*]
@[simp] theorem osRename_trace (env : Env) (src dst : String) (w : World) :
    (osRename env src dst w).2.trace = w.trace ++
      [.rename (filepath.Join [w.cwd, src]) dst (decide (dst ∈ w.fs)) (osRename env src dst w).1] := by
  unfold osRename; simp only []; split <;> simp [*]
@[simp] theorem osRename_cwd (env : Env) (src dst : String) (w : World) :
    (osRename env src dst w).2.cwd = w.cwd := by
  unfold osRename; simp only []; split <;> simp [*]
@[simp] theorem osWriteFile_trace (env : Env) (p c : String) (w : World) :
    (osWriteFile env p c w).2.trace = w.trace ++ [.writeFile p c (osWriteFile env p c w).1] := by
  unfold osWriteFile; split <;> simp [*]

/-! ### The functions by cases -/

theorem processRelease_cases (env : Env) (name sw parent : String) (i : Nat)
    (r : specsConfigRelease) (s : String) (w : World) :
    (checkoutTarget r = none ∧
      processRelease env name sw parent i r s w = (.fatal (.invalidConfig name i), w)) ∨
    (∃ t, checkoutTarget r = some t ∧ (osStat env (filepath.Join [parent, t]) w).1 = false ∧
      processRelease env name sw parent i r s w
        = (.ok (s ++ listItem t), w.emit (.stat (filepath.Join [parent, t]) false))) ∨
    (∃ t f, checkoutTarget r = some t ∧ (osStat env (filepath.Join [parent, t]) w).1 = true ∧
      (buildRelease env name sw (filepath.Join [parent, t]) t
        (w.emit (.stat (filepath.Join [parent, t]) true))).1 = .fatal f ∧
      processRelease env name sw parent i r s w
        = (.fatal f, (buildRelease env name sw (filepath.Join [parent, t]) t
            (w.emit (.stat (filepath.Join [parent, t]) true))).2)) ∨
    (∃ t, checkoutTarget r = some t ∧ (osStat env (filepath.Join [parent, t]) w).1 = true ∧
      (buildRelease env name sw (filepath.Join [parent, t]) t
        (w.emit (.stat (filepath.Join [parent, t]) true))).1 = .ok () ∧
      processRelease env name sw parent i r s w
        = (.ok (s ++ listItem t), (buildRelease env name sw (filepath.Join [parent, t]) t
            (w.emit (.stat (filepath.Join [parent, t]) true))).2)) := by
  unfold processRelease
  cases hr : checkoutTarget r with
  | none => simp
  | some t =>
    cases hs : (osStat env (filepath.Join [parent, t]) w).1 with
    | false => simp [osStat_snd, hs]
    | true =>
      cases hb : buildRelease env name sw (filepath.Join [parent, t]) t
        (w.emit (.stat (filepath.Join [parent, t]) true)) with
      | mk res w1 =>
        cases res <;> simp [osStat_snd, hs, hb]

/-- The loop body for a release whose destination exists. -/
theorem processRelease_skip (env : Env) (name sw parent : String) (i : Nat)
    (r : specsConfigRelease) (s : String) (w : World) (t : String)
    (hres : checkoutTarget r = some t) (hex : filepath.Join [parent, t] ∈ w.fs) :
    processRelease env name sw parent i r s w
      = (.ok (s ++ listItem t), w.emit (.stat (filepath.Join [parent, t]) false)) := by
  unfold processRelease
  simp [hres, osStat_snd, osStat_present env hex]

theorem releaseLoop_cons_cases (env : Env) (name sw parent : String) (r : specsConfigRelease)
    (rest : List specsConfigRelease) (s : String) (w : World) :
    (∃ f, (processRelease env name sw parent rest.length r s w).1 = .fatal f ∧
      releaseLoop env name sw parent (r :: rest) s w
        = (.fatal f, (processRelease env name sw parent rest.length r s w).2)) ∨
    (∃ s1, (processRelease env name sw parent rest.length r s w).1 = .ok s1 ∧
      releaseLoop env name sw parent (r :: rest) s w
        = releaseLoop env name sw parent rest s1
            (processRelease env name sw parent rest.length r s w).2) := by
  rw [releaseLoop]
  cases h : processRelease env name sw parent rest.length r s w with
  | mk res w1 => cases res <;> simp

theorem processSpec_cases (env : Env) (spec : specsConfigSpec) (w : World) :
    (env.getwdOk w = false ∧ processSpec env spec w = (.fatal .getwd, w)) ∨
    (env.getwdOk w = true ∧ ∃ f,
      (ensureCloned env spec.Remote (specWorkspacePath (filepath.Clean w.cwd) spec) w).1
        = .fatal f ∧
      processSpec env spec w = (.fatal f,
        (ensureCloned env spec.Remote (specWorkspacePath (filepath.Clean w.cwd) spec) w).2)) ∨
    (env.getwdOk w = true ∧
      (ensureCloned env spec.Remote (specWorkspacePath (filepath.Clean w.cwd) spec) w).1
        = .ok () ∧ ∃ f,
      (releaseLoop env spec.Name (specWorkspacePath (filepath.Clean w.cwd) spec)
        (specOutputParentPath (filepath.Clean w.cwd) spec) spec.Releases.reverse
        ("<hr/><h2>" ++ spec.Name ++ "</h2>\n" ++ "<ul>")
        (osMkdirAll env (specOutputParentPath (filepath.Clean w.cwd) spec)
          (ensureCloned env spec.Remote
            (specWorkspacePath (filepath.Clean w.cwd) spec) w).2)).1 = .fatal f ∧
      processSpec env spec w = (.fatal f,
        (releaseLoop env spec.Name (specWorkspacePath (filepath.Clean w.cwd) spec)
          (specOutputParentPath (filepath.Clean w.cwd) spec) spec.Releases.reverse
          ("<hr/><h2>" ++ spec.Name ++ "</h2>\n" ++ "<ul>")
          (osMkdirAll env (specOutputParentPath (filepath.Clean w.cwd) spec)
            (ensureCloned env spec.Remote
              (specWorkspacePath (filepath.Clean w.cwd) spec) w).2)).2)) ∨
    (env.getwdOk w = true ∧
      (ensureCloned env spec.Remote (specWorkspacePath (filepath.Clean w.cwd) spec) w).1
        = .ok () ∧ ∃ s1,
      (releaseLoop env spec.Name (specWorkspacePath (filepath.Clean w.cwd) spec)
        (specOutputParentPath (filepath.Clean w.cwd) spec) spec.Releases.reverse
        ("<hr/><h2>" ++ spec.Name ++ "</h2>\n" ++ "<ul>")
        (osMkdirAll env (specOutputParentPath (filepath.Clean w.cwd) spec)
          (ensureCloned env spec.Remote
            (specWorkspacePath (filepath.Clean w.cwd) spec) w).2)).1 = .ok s1 ∧
      processSpec env spec w = (.ok (s1 ++ "</ul>"),
        osChdir env (filepath.Clean w.cwd)
          (releaseLoop env spec.Name (specWorkspacePath (filepath.Clean w.cwd) spec)
            (specOutputParentPath (filepath.Clean w.cwd) spec) spec.Releases.reverse
            ("<hr/><h2>" ++ spec.Name ++ "</h2>\n" ++ "<ul>")
            (osMkdirAll env (specOutputParentPath (filepath.Clean w.cwd) spec)
              (ensureCloned env spec.Remote
                (specWorkspacePath (filepath.Clean w.cwd) spec) w).2)).2)) := by
  unfold processSpec absPath
  cases hwd : env.getwdOk w with
  | false => simp
  | true =>
    cases hc : ensureCloned env spec.Remote (specWorkspacePath (filepath.Clean w.cwd) spec) w with
    | mk res w1 =>
      cases res with
      | fatal f => simp [hc]
      | ok u =>
        cases hl : releaseLoop env spec.Name (specWorkspacePath (filepath.Clean w.cwd) spec)
          (specOutputParentPath (filepath.Clean w.cwd) spec) spec.Releases.reverse
          ("<hr/><h2>" ++ spec.Name ++ "</h2>\n" ++ "<ul>")
          (osMkdirAll env (specOutputParentPath (filepath.Clean w.cwd) spec) w1) with
        | mk res2 w2 => cases res2 <;> simp [hc, hl]

theorem specLoop_cons_cases (env : Env) (gw : String) (spec : specsConfigSpec)
    (rest : List specsConfigSpec) (s : String) (w : World) :
    (∃ f, (processSpec env spec (osChdir env gw w)).1 = .fatal f ∧
      specLoop env gw (spec :: rest) s w
        = (.fatal f, (processSpec env spec (osChdir env gw w)).2)) ∨
    (∃ frag, (processSpec env spec (osChdir env gw w)).1 = .ok frag ∧
      specLoop env gw (spec :: rest) s w
        = specLoop env gw rest (s ++ frag) (processSpec env spec (osChdir env gw w)).2) := by
  rw [specLoop]
  cases h : processSpec env spec (osChdir env gw w) with
  | mk res w1 => cases res <;> simp

theorem processConfig_cases (env : Env) (config : specsConfig) (w : World) :
    (env.getwdOk w = false ∧ processConfig env config w = (.fatal .getwd, w)) ∨
    (env.getwdOk w = true ∧ ∃ f,
      (specLoop env (filepath.Join [filepath.Clean w.cwd, "docs", "git-workspace"])
        config.Specs indexHeader
        (osMkdirAll env (filepath.Join [filepath.Clean w.cwd, "docs", "git-workspace"]) w)).1
        = .fatal f ∧
      processConfig env config w = (.fatal f,
        (specLoop env (filepath.Join [filepath.Clean w.cwd, "docs", "git-workspace"])
          config.Specs indexHeader
          (osMkdirAll env
            (filepath.Join [filepath.Clean w.cwd, "docs", "git-workspace"]) w)).2)) ∨
    (env.getwdOk w = true ∧ ∃ s1,
      (specLoop env (filepath.Join [filepath.Clean w.cwd, "docs", "git-workspace"])
        config.Specs indexHeader
        (osMkdirAll env (filepath.Join [filepath.Clean w.cwd, "docs", "git-workspace"]) w)).1
        = .ok s1 ∧
      processConfig env config w =
        (if (osWriteFile env (filepath.Join [filepath.Clean w.cwd, "docs", "index.html"])
              (s1 ++ indexFooter)
              (osChdir env (filepath.Clean w.cwd)
                (specLoop env (filepath.Join [filepath.Clean w.cwd, "docs", "git-workspace"])
                  config.Specs indexHeader
                  (osMkdirAll env
                    (filepath.Join [filepath.Clean w.cwd, "docs", "git-workspace"]) w)).2)).1
            = false
          then .fatal .writeFile else .ok (),
         (osWriteFile env (filepath.Join [filepath.Clean w.cwd, "docs", "index.html"])
              (s1 ++ indexFooter)
              (osChdir env (filepath.Clean w.cwd)
                (specLoop env (filepath.Join [filepath.Clean w.cwd, "docs", "git-workspace"])
                  config.Specs indexHeader
                  (osMkdirAll env
                    (filepath.Join [filepath.Clean w.cwd, "docs", "git-workspace"]) w)).2)).2)) := by
  unfold processConfig absPath
  cases hwd : env.getwdOk w with
  | false => simp
  | true =>
    cases hl : specLoop env (filepath.Join [filepath.Clean w.cwd, "docs", "git-workspace"])
        config.Specs indexHeader
        (osMkdirAll env (filepath.Join [filepath.Clean w.cwd, "docs", "git-workspace"]) w) with
    | mk res w1 =>
      cases res with
      | fatal f => simp [hl]
      | ok s1 =>
        simp only [hl, if_true]
        split_ifs <;> simp [*]

/-! ### Lifting a relation from the steps to the run -/

theorem processRelease_sound {env : Env} {R : World → Option Fatal → World → Prop}
    (h : ReleaseRules env R) (name sw parent : String) (i : Nat) (r : specsConfigRelease)
    (s : String) (w : World) :
    R w (processRelease env name sw parent i r s w).1.reason
      (processRelease env name sw parent i r s w).2 := by
  rcases processRelease_cases env name sw parent i r s w with
    ⟨_, h2⟩ | ⟨t, _, hs, h2⟩ | ⟨t, f, _, hs, hb, h2⟩ | ⟨t, _, hs, hb, h2⟩
  · rw [h2]; exact h.invalid w name i
  · rw [h2]
    have h1 := h.stat (filepath.Join [parent, t]) w
    rw [osStat_snd, hs] at h1
    exact h1
  · rw [h2]
    have h1 := h.stat (filepath.Join [parent, t]) w
    rw [osStat_snd, hs] at h1
    have h3 := h.build name sw (filepath.Join [parent, t]) t
      (w.emit (.stat (filepath.Join [parent, t]) true))
      (show filepath.Join [parent, t] ∉ w.fs from osStat_absent hs)
    rw [hb] at h3
    exact h.seq _ _ _ _ h1 h3
  · rw [h2]
    have h1 := h.stat (filepath.Join [parent, t]) w
    rw [osStat_snd, hs] at h1
    have h3 := h.build name sw (filepath.Join [parent, t]) t
      (w.emit (.stat (filepath.Join [parent, t]) true))
      (show filepath.Join [parent, t] ∉ w.fs from osStat_absent hs)
    rw [hb] at h3
    exact h.seq _ _ _ _ h1 h3

theorem releaseLoop_sound {env : Env} {R : World → Option Fatal → World → Prop}
    (h : ReleaseRules env R) (name sw parent : String) (rs : List specsConfigRelease)
    (s : String) (w : World) :
    R w (releaseLoop env name sw parent rs s w).1.reason
      (releaseLoop env name sw parent rs s w).2 := by
  induction rs generalizing s w with
  | nil => simpa [releaseLoop, Outcome.reason] using h.refl w
  | cons r rest ih =>
    have hp := processRelease_sound h name sw parent rest.length r s w
    rcases releaseLoop_cons_cases env name sw parent r rest s w with ⟨f, h1, h2⟩ | ⟨s1, h1, h2⟩
    · rw [h2]; rw [h1] at hp; exact hp
    · rw [h2]; rw [h1] at hp
      exact h.seq _ _ _ _ hp (ih _ _)

theorem processSpec_sound {env : Env} {R : World → Option Fatal → World → Prop}
    (h : SpecRules env R) (spec : specsConfigSpec) (w : World) :
    R w (processSpec env spec w).1.reason (processSpec env spec w).2 := by
  have hc := h.clone spec.Remote (specWorkspacePath (filepath.Clean w.cwd) spec) w
  have hl := releaseLoop_sound h.toReleaseRules spec.Name
    (specWorkspacePath (filepath.Clean w.cwd) spec)
    (specOutputParentPath (filepath.Clean w.cwd) spec) spec.Releases.reverse
    ("<hr/><h2>" ++ spec.Name ++ "</h2>\n" ++ "<ul>")
    (osMkdirAll env (specOutputParentPath (filepath.Clean w.cwd) spec)
      (ensureCloned env spec.Remote (specWorkspacePath (filepath.Clean w.cwd) spec) w).2)
  have hm := h.mkdirAll (specOutputParentPath (filepath.Clean w.cwd) spec)
    (ensureCloned env spec.Remote (specWorkspacePath (filepath.Clean w.cwd) spec) w).2
  rcases processSpec_cases env spec w with
    ⟨_, h2⟩ | ⟨_, f, h1, h2⟩ | ⟨_, h1, f, h3, h2⟩ | ⟨_, h1, s1, h3, h2⟩
  · rw [h2]; exact h.getwd w
  · rw [h2]; rw [h1] at hc; exact hc
  · rw [h2]; rw [h1] at hc; rw [h3] at hl
    exact h.seq _ _ _ _ hc (h.seq _ _ _ _ hm hl)
  · rw [h2]; rw [h1] at hc; rw [h3] at hl
    exact h.seq _ _ _ _ hc (h.seq _ _ _ _ hm (h.seq _ _ _ _ hl (h.chdir _ _)))

theorem specLoop_sound {env : Env} {R : World → Option Fatal → World → Prop}
    (h : SpecRules env R) (gw : String) (specs : List specsConfigSpec) (s : String) (w : World) :
    R w (specLoop env gw specs s w).1.reason (specLoop env gw specs s w).2 := by
  induction specs generalizing s w with
  | nil => simpa [specLoop, Outcome.reason] using h.refl w
  | cons spec rest ih =>
    have hp := processSpec_sound h spec (osChdir env gw w)
    rcases specLoop_cons_cases env gw spec rest s w with ⟨f, h1, h2⟩ | ⟨s1, h1, h2⟩
    · rw [h2]; rw [h1] at hp; exact h.seq _ _ _ _ (h.chdir gw w) hp
    · rw [h2]; rw [h1] at hp
      exact h.seq _ _ _ _ (h.chdir gw w) (h.seq _ _ _ _ hp (ih _ _))

theorem processConfig_sound {env : Env} {R : World → Option Fatal → World → Prop}
    (h : RunRules env R) (config : specsConfig) (w : World) :
    R w (processConfig env config w).1.reason (processConfig env config w).2 := by
  have hl := specLoop_sound h.toSpecRules (filepath.Join [filepath.Clean w.cwd, "docs", "git-workspace"])
    config.Specs indexHeader
    (osMkdirAll env (filepath.Join [filepath.Clean w.cwd, "docs", "git-workspace"]) w)
  have hm := h.mkdirAll (filepath.Join [filepath.Clean w.cwd, "docs", "git-workspace"]) w
  rcases processConfig_cases env config w with ⟨_, h2⟩ | ⟨_, f, h1, h2⟩ | ⟨_, s1, h1, h2⟩
  · rw [h2]; exact h.getwd w
  · rw [h2]; rw [h1] at hl; exact h.seq _ _ _ _ hm hl
  · rw [h2]; rw [h1] at hl
    refine h.seq _ _ _ _ hm (h.seq _ _ _ _ hl (h.seq _ _ _ _ (h.chdir (filepath.Clean w.cwd) _) ?_))
    have hw := h.write (filepath.Join [filepath.Clean w.cwd, "docs", "index.html"])
      (s1 ++ indexFooter) (osChdir env (filepath.Clean w.cwd)
        (specLoop env (filepath.Join [filepath.Clean w.cwd, "docs", "git-workspace"])
          config.Specs indexHeader
          (osMkdirAll env
            (filepath.Join [filepath.Clean w.cwd, "docs", "git-workspace"]) w)).2)
    split_ifs at hw ⊢ <;> simpa [Outcome.reason] using hw

/-! ## The shape of a run -/

theorem buildRelease_shape (env : Env) (name sw dst t : String) (w : World) :
    Shape w (buildRelease env name sw dst t w).1.reason (buildRelease env name sw dst t w).2 := by
  unfold buildRelease
  simp only []
  split_ifs with h1 h2 h3 h4
  · refine ⟨_, by simp only [osExec_trace, osChdir_trace, List.append_assoc]; rfl, ?_⟩
    simp only [Outcome.reason]
    right
    exact ⟨[_], _, [], rfl, by simp [Event.failed], by simp [Event.failed, h1], rfl, by simp⟩
  · refine ⟨_, by simp only [osExec_trace, osChdir_trace, List.append_assoc]; rfl, ?_⟩
    simp only [Outcome.reason]
    right
    refine ⟨[_, _], _, [], rfl, ?_, by simp [Event.failed, h2], rfl, by simp⟩
    simp [Event.failed]
    simpa using h1
  · refine ⟨_, by simp only [osExec_trace, osChdir_trace, osRemove_trace, List.append_assoc]; rfl, ?_⟩
    simp only [Outcome.reason]
    right
    refine ⟨[_, _, _], _, [_], rfl, ?_, by simp [Event.failed, h3], rfl, by simp [Event.isRemove]⟩
    simp [Event.failed]
    exact ⟨by simpa using h1, by simpa using h2⟩
  · refine ⟨_, by simp only [osExec_trace, osChdir_trace, osRemove_trace, osRename_trace, List.append_assoc]; rfl, ?_⟩
    simp only [Outcome.reason]
    right
    refine ⟨[_, _, _, _, _], _, [], rfl, ?_, by simp [Event.failed, h4], rfl, by simp⟩
    simp [Event.failed]
    exact ⟨by simpa using h1, by simpa using h2, by simpa using h3⟩
  · refine ⟨_, by simp only [osExec_trace, osChdir_trace, osRemove_trace, osRename_trace, List.append_assoc]; rfl, ?_⟩
    simp only [Outcome.reason]
    simp [Event.failed]
    exact ⟨by simpa using h1, by simpa using h2, by simpa using h3, by simpa using h4⟩

theorem ensureCloned_shape (env : Env) (remote sw : String) (w : World) :
    Shape w (ensureCloned env remote sw w).1.reason (ensureCloned env remote sw w).2 := by
  unfold ensureCloned
  simp only []
  split_ifs with h1 h2
  · exact ⟨_, by simp only [osStat_snd, trace_emit]; rfl, by simp [Outcome.reason, Event.failed]⟩
  · refine ⟨_, by simp only [osExec_trace, osStat_snd, trace_emit, List.append_assoc]; rfl, ?_⟩
    simp only [Outcome.reason]
    right
    exact ⟨[_], _, [], rfl, by simp [Event.failed], by simpa [Event.failed] using h2, rfl,
      by simp⟩
  · refine ⟨_, by simp only [osExec_trace, osStat_snd, trace_emit, List.append_assoc]; rfl, ?_⟩
    simp only [Outcome.reason]
    simp [Event.failed]
    simpa using h2

theorem shape_rules (env : Env) : RunRules env Shape where
  refl w := ⟨[], by simp, by simp⟩
  seq w w1 w2 o h1 h2 := by
    obtain ⟨d1, e1, a1⟩ := h1
    obtain ⟨d2, e2, a2⟩ := h2
    refine ⟨d1 ++ d2, by rw [e2, e1, List.append_assoc], ?_⟩
    cases o with
    | none =>
      intro e he
      rcases List.mem_append.1 he with he | he
      · exact a1 e he
      · exact a2 e he
    | some f =>
      rcases a2 with ⟨a2, hf⟩ | ⟨pre, x, tail, hd, hpre, hx, hr, ht⟩
      · left
        refine ⟨?_, hf⟩
        intro e he
        rcases List.mem_append.1 he with he | he
        · exact a1 e he
        · exact a2 e he
      · right
        refine ⟨d1 ++ pre, x, tail, by rw [hd, List.append_assoc], ?_, hx, hr, ht⟩
        intro e he
        rcases List.mem_append.1 he with he | he
        · exact a1 e he
        · exact hpre e he
  invalid w name i := ⟨[], by simp, Or.inl ⟨by simp, rfl⟩⟩
  stat p w := ⟨_, by simp only [osStat_snd, trace_emit]; rfl, by simp [Event.failed]⟩
  build name sw dst t w _ := buildRelease_shape env name sw dst t w
  getwd w := ⟨[], by simp, Or.inl ⟨by simp, rfl⟩⟩
  mkdirAll p w := ⟨_, osMkdirAll_trace env p w, by simp [Event.failed]⟩
  chdir p w := ⟨_, osChdir_trace env p w, by simp [Event.failed]⟩
  clone remote sw w := ensureCloned_shape env remote sw w
  write p c w := by
    refine ⟨_, osWriteFile_trace env p c w, ?_⟩
    split_ifs with h
    · right
      exact ⟨[], _, [], rfl, by simp, by simp [Event.failed, h], rfl, by simp⟩
    · simp [Event.failed]
      simpa using h

theorem halted_unique {d : List Event} {f : Fatal} (h : Halted d f) (pre post : List Event)
    (y : Event) (hd : d = pre ++ y :: post) (hy : y.failed = true) :
    f = y.reason ∧ ∀ e ∈ post, e.isRemove = true := by
  obtain ⟨pre0, x, tail, hd0, hpre, hx, hr, ht⟩ := h
  subst hd0
  have hrem : ∀ e ∈ tail, e.failed = false := by
    intro e he
    have := ht e he
    cases e <;> simp_all [Event.isRemove, Event.failed]
  induction pre0 generalizing pre with
  | nil =>
    cases pre with
    | nil =>
      simp only [List.nil_append, List.cons.injEq] at hd
      obtain ⟨rfl, rfl⟩ := hd
      exact ⟨hr.symm, ht⟩
    | cons p ps =>
      simp only [List.nil_append, List.cons_append, List.cons.injEq] at hd
      obtain ⟨rfl, rfl⟩ := hd
      have := hrem y (by simp)
      simp [hy] at this
  | cons a as ih =>
    cases pre with
    | nil =>
      simp only [List.nil_append, List.cons_append, List.cons.injEq] at hd
      obtain ⟨rfl, _⟩ := hd
      have := hpre a (by simp)
      simp [hy] at this
    | cons p ps =>
      simp only [List.cons_append, List.cons.injEq] at hd
      exact ih ps (fun e he => hpre e (List.mem_cons_of_mem _ he)) hd.2

/-! ## Properties of every operation of a run -/

theorem always_seq (P : Event → Prop) (w w1 w2 : World) (o : Option Fatal)
    (h1 : Always P w none w1) (h2 : Always P w1 o w2) : Always P w o w2 := by
  obtain ⟨d1, e1, a1⟩ := h1
  obtain ⟨d2, e2, a2⟩ := h2
  refine ⟨d1 ++ d2, by rw [e2, e1, List.append_assoc], ?_⟩
  intro e he
  rcases List.mem_append.1 he with he | he
  · exact a1 e he
  · exact a2 e he

theorem buildRelease_always (P : Event → Prop) (env : Env) (name sw dst t : String) (w : World)
    (hcd : ∀ p b, P (.chdir p b))
    (hco : ∀ dir b, P (.exec dir ["git", "checkout", "-f", t] b))
    (hcl : ∀ dir b, P (.exec dir ["git", "clean", "-f", t] b))
    (hbuild : ∀ dir b, P (.exec dir (buildCommand name t) b))
    (hrm : ∀ p b, P (.remove p b))
    (hmv : ∀ src ex b, P (.rename src dst ex b)) :
    Always P w (buildRelease env name sw dst t w).1.reason
      (buildRelease env name sw dst t w).2 := by
  unfold buildRelease
  simp only []
  split_ifs with h1 h2 h3 h4
  · refine ⟨_, by simp only [osExec_trace, osChdir_trace, List.append_assoc]; rfl, ?_⟩
    simp [hcd, hco, hcl]
  · refine ⟨_, by simp only [osExec_trace, osChdir_trace, List.append_assoc]; rfl, ?_⟩
    simp [hcd, hco, hcl]
  · refine ⟨_, by simp only [osExec_trace, osChdir_trace, osRemove_trace,
      List.append_assoc]; rfl, ?_⟩
    simp [hcd, hco, hcl, hbuild, hrm]
  · refine ⟨_, by simp only [osExec_trace, osChdir_trace, osRemove_trace, osRename_trace,
      List.append_assoc]; rfl, ?_⟩
    simp [hcd, hco, hcl, hbuild, hrm, hmv]
  · refine ⟨_, by simp only [osExec_trace, osChdir_trace, osRemove_trace, osRename_trace,
      List.append_assoc]; rfl, ?_⟩
    simp [hcd, hco, hcl, hbuild, hrm, hmv]

theorem ensureCloned_always (P : Event → Prop) (env : Env) (remote sw : String) (w : World)
    (hstat : ∀ p b, P (.stat p b))
    (hclone : ∀ dir b, P (.exec dir ["git", "clone", "--depth=1000000", remote, sw] b)) :
    Always P w (ensureCloned env remote sw w).1.reason (ensureCloned env remote sw w).2 := by
  unfold ensureCloned
  simp only []
  split_ifs with h1 h2
  · exact ⟨_, by simp only [osStat_snd, trace_emit]; rfl, by simp [hstat]⟩
  · refine ⟨_, by simp only [osExec_trace, osStat_snd, trace_emit, List.append_assoc]; rfl, ?_⟩
    simp [hstat, hclone]
  · refine ⟨_, by simp only [osExec_trace, osStat_snd, trace_emit, List.append_assoc]; rfl, ?_⟩
    simp [hstat, hclone]

theorem always_releaseRules (P : Event → Prop) (env : Env)
    (hstat : ∀ p b, P (.stat p b))
    (hbuild : ∀ name sw dst t w, dst ∉ w.fs →
      Always P w (buildRelease env name sw dst t w).1.reason
        (buildRelease env name sw dst t w).2) :
    ReleaseRules env (Always P) where
  refl w := ⟨[], by simp, by simp⟩
  seq := always_seq P
  invalid w name i := ⟨[], by simp, by simp⟩
  stat p w := ⟨_, by simp only [osStat_snd, trace_emit]; rfl, by simp [hstat]⟩
  build := hbuild

theorem always_specRules (P : Event → Prop) (env : Env)
    (hstat : ∀ p b, P (.stat p b))
    (hmk : ∀ p b, P (.mkdirAll p b))
    (hcd : ∀ p b, P (.chdir p b))
    (hclone : ∀ remote sw w,
      Always P w (ensureCloned env remote sw w).1.reason (ensureCloned env remote sw w).2)
    (hbuild : ∀ name sw dst t w, dst ∉ w.fs →
      Always P w (buildRelease env name sw dst t w).1.reason
        (buildRelease env name sw dst t w).2) :
    SpecRules env (Always P) where
  toReleaseRules := always_releaseRules P env hstat hbuild
  getwd w := ⟨[], by simp, by simp⟩
  mkdirAll p w := ⟨_, osMkdirAll_trace env p w, by simp [hmk]⟩
  chdir p w := ⟨_, osChdir_trace env p w, by simp [hcd]⟩
  clone := hclone

theorem always_runRules (P : Event → Prop) (env : Env)
    (hstat : ∀ p b, P (.stat p b))
    (hmk : ∀ p b, P (.mkdirAll p b))
    (hcd : ∀ p b, P (.chdir p b))
    (hwr : ∀ p c b, P (.writeFile p c b))
    (hclone : ∀ remote sw w,
      Always P w (ensureCloned env remote sw w).1.reason (ensureCloned env remote sw w).2)
    (hbuild : ∀ name sw dst t w, dst ∉ w.fs →
      Always P w (buildRelease env name sw dst t w).1.reason
        (buildRelease env name sw dst t w).2) :
    RunRules env (Always P) where
  toSpecRules := always_specRules P env hstat hmk hcd hclone hbuild
  write p c w := ⟨_, osWriteFile_trace env p c w, by simp [hwr]⟩

theorem buildCommand_head (name t : String) :
    (buildCommand name t).head? = some "make" ∨ (buildCommand name t).head? = some "sh" := by
  unfold buildCommand
  simp only []
  split_ifs <;> simp

theorem isClone_buildCommand (name t : String) : isClone (buildCommand name t) = false := by
  unfold buildCommand isClone
  simp only []
  split_ifs <;> simp

theorem buildRelease_loopEvent (env : Env) (name sw dst t : String) (w : World) :
    Always loopEvent w (buildRelease env name sw dst t w).1.reason
      (buildRelease env name sw dst t w).2 :=
  buildRelease_always loopEvent env name sw dst t w (by simp [loopEvent])
    (by simp [loopEvent, isClone]) (by simp [loopEvent, isClone])
    (by simp [loopEvent, isClone_buildCommand]) (by simp [loopEvent]) (by simp [loopEvent])

theorem loop_rules (env : Env) : ReleaseRules env (Always loopEvent) :=
  always_releaseRules loopEvent env (by simp [loopEvent])
    (fun name sw dst t w _ => buildRelease_loopEvent env name sw dst t w)

theorem buildRelease_noWrite (env : Env) (name sw dst t : String) (w : World) :
    Always noWrite w (buildRelease env name sw dst t w).1.reason
      (buildRelease env name sw dst t w).2 :=
  buildRelease_always noWrite env name sw dst t w (by simp [noWrite])
    (by simp [noWrite]) (by simp [noWrite]) (by simp [noWrite]) (by simp [noWrite])
    (by simp [noWrite])

theorem noWrite_rules (env : Env) : SpecRules env (Always noWrite) :=
  always_specRules noWrite env (by simp [noWrite]) (by simp [noWrite]) (by simp [noWrite])
    (fun remote sw w => ensureCloned_always noWrite env remote sw w (by simp [noWrite])
      (by simp [noWrite]))
    (fun name sw dst t w _ => buildRelease_noWrite env name sw dst t w)

/-! ### Projections of a trace -/

@[simp] theorem commands_append (a b : List Event) :
    commands (a ++ b) = commands a ++ commands b := by
  induction a with
  | nil => rfl
  | cons e rest ih => cases e <;> simp [commands, ih]

@[simp] theorem builds_append (a b : List Event) : builds (a ++ b) = builds a ++ builds b := by
  simp [builds]

@[simp] theorem clones_append (a b : List Event) : clones (a ++ b) = clones a ++ clones b := by
  simp [clones]

@[simp] theorem examined_append (a b : List Event) :
    examined (a ++ b) = examined a ++ examined b := by
  induction a with
  | nil => rfl
  | cons e rest ih => cases e <;> simp [examined, ih]

@[simp] theorem relocations_append (a b : List Event) :
    relocations (a ++ b) = relocations a ++ relocations b := by
  induction a with
  | nil => rfl
  | cons e rest ih => cases e <;> simp [relocations, ih]

@[simp] theorem written_append (a b : List Event) :
    written (a ++ b) = written a ++ written b := by
  induction a with
  | nil => rfl
  | cons e rest ih => cases e <;> simp [written, ih]

theorem written_of_noWrite {d : List Event} (h : ∀ e ∈ d, noWrite e) : written d = [] := by
  induction d with
  | nil => rfl
  | cons e rest ih =>
    have he := h e (by simp)
    have hr := ih (fun e he => h e (List.mem_cons_of_mem _ he))
    cases e <;> simp_all [written, noWrite]

theorem clones_of_loopEvent {d : List Event} (h : ∀ e ∈ d, loopEvent e) : clones d = [] := by
  induction d with
  | nil => rfl
  | cons e rest ih =>
    have he := h e (by simp)
    have hr := ih (fun e he => h e (List.mem_cons_of_mem _ he))
    cases e <;> simp_all [clones, commands, loopEvent]

theorem quiet_of_isRemove {d : List Event} (h : ∀ e ∈ d, e.isRemove = true) :
    commands d = [] ∧ relocations d = [] ∧ written d = [] := by
  induction d with
  | nil => exact ⟨rfl, rfl, rfl⟩
  | cons e rest ih =>
    have he := h e (by simp)
    have hr := ih (fun e he => h e (List.mem_cons_of_mem _ he))
    cases e <;> simp_all [commands, relocations, written, Event.isRemove]

/-! ## C5: a failed command ends the run -/

/-- C5: when a command run by `processConfig` exits with failure (the build command of a
release in particular), the run ends with `log.Fatalf("cmd.Run")`: after the failed command
no command is run (no clone, checkout, clean or build), nothing is relocated, and the index
document is never written. -/
theorem command_failure_halts (env : Env) (config : specsConfig) (w : World)
    (pre post : List Event) (dir : String) (argv : List String)
    (h : (processConfig env config w).2.since w = pre ++ .exec dir argv false :: post) :
    (processConfig env config w).1 = .fatal .cmdRun ∧ commands post = [] ∧
      relocations post = [] ∧ written ((processConfig env config w).2.since w) = [] := by
  obtain ⟨d, hd, hm⟩ := processConfig_sound (shape_rules env) config w
  rw [since_eq hd] at h
  have hmem : (Event.exec dir argv false) ∈ d := by rw [h]; simp
  have hres : (processConfig env config w).1 = .fatal .cmdRun ∧ ∀ e ∈ post, e.isRemove = true := by
    cases hr : (processConfig env config w).1 with
    | ok u =>
      rw [hr] at hm
      have := hm _ hmem
      simp [Event.failed] at this
    | fatal f =>
      rw [hr] at hm
      rcases hm with ⟨hm, _⟩ | hm
      · have := hm _ hmem
        simp [Event.failed] at this
      · have := halted_unique hm pre post _ h (by simp [Event.failed])
        exact ⟨by rw [this.1]; rfl, this.2⟩
  refine ⟨hres.1, (quiet_of_isRemove hres.2).1, (quiet_of_isRemove hres.2).2.1, ?_⟩
  rcases processConfig_cases env config w with ⟨_, h2⟩ | ⟨_, f, h1, h2⟩ | ⟨_, s1, h1, h2⟩
  · rw [h2]; simp [written]
  · rw [h2]
    obtain ⟨d2, hd2, hn⟩ := specLoop_sound (noWrite_rules env)
      (filepath.Join [filepath.Clean w.cwd, "docs", "git-workspace"]) config.Specs indexHeader
      (osMkdirAll env (filepath.Join [filepath.Clean w.cwd, "docs", "git-workspace"]) w)
    rw [since_eq (d := [_] ++ d2) (by rw [hd2, osMkdirAll_trace, List.append_assoc])]
    simp [written, written_of_noWrite hn]
  · rw [h2] at hres
    have := hres.1
    simp only at this
    split_ifs at this
    simp at this

/-! ## The HTML returned by a run that completes -/

theorem join_cons (a : String) (l : List String) : String.join (a :: l) = a ++ String.join l := by
  apply String.ext
  simp [String.join_eq, String.data_append]

theorem processRelease_ok {env : Env} {name sw parent : String} {i : Nat}
    {r : specsConfigRelease} {s s1 : String} {w : World}
    (h : (processRelease env name sw parent i r s w).1 = .ok s1) :
    ∃ t, checkoutTarget r = some t ∧ s1 = s ++ listItem t := by
  rcases processRelease_cases env name sw parent i r s w with
    ⟨_, h2⟩ | ⟨t, ht, _, h2⟩ | ⟨t, f, _, hd, hb, h2⟩ | ⟨t, ht, hd, hb, h2⟩
  · rw [h2] at h; simp at h
  · rw [h2] at h; exact ⟨t, ht, by simpa using h.symm⟩
  · rw [h2] at h; simp at h
  · rw [h2] at h; exact ⟨t, ht, by simpa using h.symm⟩

theorem releaseLoop_ok {env : Env} {name sw parent : String} {rs : List specsConfigRelease}
    {s s1 : String} {w : World}
    (h : (releaseLoop env name sw parent rs s w).1 = .ok s1) :
    (∀ r ∈ rs, checkoutTarget r ≠ none) ∧
      s1 = s ++ String.join ((rs.filterMap checkoutTarget).map listItem) := by
  induction rs generalizing s w with
  | nil =>
    simp only [releaseLoop, Outcome.ok.injEq] at h
    simp [h, String.join]
  | cons r rest ih =>
    rcases releaseLoop_cons_cases env name sw parent r rest s w with ⟨f, h1, h2⟩ | ⟨s2, h1, h2⟩
    · rw [h2] at h; simp at h
    · rw [h2] at h
      obtain ⟨t, ht, hs⟩ := processRelease_ok h1
      obtain ⟨ha, hb⟩ := ih h
      refine ⟨?_, ?_⟩
      · intro r' hr'
        rcases List.mem_cons.1 hr' with rfl | hr'
        · simp [ht]
        · exact ha r' hr'
      · rw [hb, hs, List.filterMap_cons_some ht, List.map_cons, join_cons, String.append_assoc]

theorem processSpec_ok {env : Env} {spec : specsConfigSpec} {frag : String} {w : World}
    (h : (processSpec env spec w).1 = .ok frag) :
    (∀ r ∈ spec.Releases, checkoutTarget r ≠ none) ∧ frag = specFragment spec := by
  rcases processSpec_cases env spec w with
    ⟨_, h2⟩ | ⟨_, f, h1, h2⟩ | ⟨_, h1, f, h3, h2⟩ | ⟨_, h1, s1, h3, h2⟩
  · rw [h2] at h; simp at h
  · rw [h2] at h; simp at h
  · rw [h2] at h; simp at h
  · rw [h2] at h
    obtain ⟨ha, hb⟩ := releaseLoop_ok h3
    refine ⟨fun r hr => ha r (List.mem_reverse.2 hr), ?_⟩
    simp only [Outcome.ok.injEq] at h
    rw [← h, hb, specFragment]
    simp only [String.append_assoc]
    rfl

theorem specLoop_ok {env : Env} {gw : String} {specs : List specsConfigSpec} {s s1 : String}
    {w : World} (h : (specLoop env gw specs s w).1 = .ok s1) :
    (∀ spec ∈ specs, ∀ r ∈ spec.Releases, checkoutTarget r ≠ none) ∧
      s1 = s ++ String.join (specs.map specFragment) := by
  induction specs generalizing s w with
  | nil =>
    simp only [specLoop, Outcome.ok.injEq] at h
    simp [h, String.join]
  | cons spec rest ih =>
    rcases specLoop_cons_cases env gw spec rest s w with ⟨f, h1, h2⟩ | ⟨frag, h1, h2⟩
    · rw [h2] at h; simp at h
    · rw [h2] at h
      obtain ⟨hr, hf⟩ := processSpec_ok h1
      obtain ⟨ha, hb⟩ := ih h
      refine ⟨?_, ?_⟩
      · intro sp hsp
        rcases List.mem_cons.1 hsp with rfl | hsp
        · exact hr
        · exact ha sp hsp
      · rw [hb, hf, List.map_cons, join_cons, String.append_assoc]

theorem processConfig_ok {env : Env} {config : specsConfig} {w : World}
    (h : (processConfig env config w).1 = .ok ()) :
    (∀ spec ∈ config.Specs, ∀ r ∈ spec.Releases, checkoutTarget r ≠ none) ∧
      written ((processConfig env config w).2.since w)
        = [(filepath.Join [filepath.Clean w.cwd, "docs", "index.html"], indexDocument config)] := by
  rcases processConfig_cases env config w with ⟨_, h2⟩ | ⟨_, f, h1, h2⟩ | ⟨_, s1, h1, h2⟩
  · rw [h2] at h; simp at h
  · rw [h2] at h; simp at h
  · obtain ⟨ha, hb⟩ := specLoop_ok h1
    refine ⟨ha, ?_⟩
    rw [h2]
    obtain ⟨d2, hd2, hn⟩ := specLoop_sound (noWrite_rules env)
      (filepath.Join [filepath.Clean w.cwd, "docs", "git-workspace"]) config.Specs indexHeader
      (osMkdirAll env (filepath.Join [filepath.Clean w.cwd, "docs", "git-workspace"]) w)
    rw [since_eq (d := [_] ++ d2 ++ [_, _]) (by
      simp only [osWriteFile_trace, osChdir_trace, hd2, osMkdirAll_trace, List.append_assoc]
      rfl)]
    simp [written, written_of_noWrite hn, hb, indexDocument, String.append_assoc]

/-! ## C1: checkout-target resolution -/

theorem buildRelease_fatal {env : Env} {name sw dst t : String} {w : World} {f : Fatal}
    (h : (buildRelease env name sw dst t w).1 = .fatal f) : f = .cmdRun ∨ f = .rename := by
  unfold buildRelease at h
  simp only [] at h
  split_ifs at h <;> simp at h <;> simp [← h]

/-- C1: the checkout target of a release is its tag when the tag is non-empty, otherwise its
commit when the commit is non-empty; resolution fails exactly when both are empty, and the
branch plays no part.  In `processSpec` the failure is the fatal error `invalidConfig` of the
loop body, raised exactly for such a release, and a configuration containing such a release
makes every run of `processConfig` end fatally. -/
theorem checkoutTarget_resolution (release : specsConfigRelease) :
    checkoutTarget release
        = (if release.Tag ≠ "" then some release.Tag
           else if release.Commit ≠ "" then some release.Commit else none) ∧
      (checkoutTarget release = none ↔ release.Tag = "" ∧ release.Commit = "") ∧
      (∀ branch, checkoutTarget { release with Branch := branch } = checkoutTarget release) ∧
      (∀ env name sw parent i s w,
        (processRelease env name sw parent i release s w).1 = .fatal (.invalidConfig name i)
          ↔ release.Tag = "" ∧ release.Commit = "") ∧
      (∀ env config w, (∃ spec ∈ config.Specs, release ∈ spec.Releases) →
        release.Tag = "" ∧ release.Commit = "" →
        ∃ f, (processConfig env config w).1 = .fatal f) ∧
      checkoutTarget { Commit := "", Tag := "v1.0", Branch := "" } = some "v1.0" ∧
      checkoutTarget { Commit := "abc123", Tag := "", Branch := "" } = some "abc123" ∧
      checkoutTarget { Commit := "", Tag := "", Branch := "main" } = none := by
  have hiff : checkoutTarget release = none ↔ release.Tag = "" ∧ release.Commit = "" := by
    unfold checkoutTarget
    simp only []
    split_ifs <;> simp [*]
  refine ⟨?_, hiff, ?_, ?_, ?_, by decide, by decide, by decide⟩
  · unfold checkoutTarget
    simp only []
    split_ifs <;> simp_all
  · intro branch
    rfl
  · intro env name sw parent i s w
    rw [← hiff]
    rcases processRelease_cases env name sw parent i release s w with
      ⟨h1, h2⟩ | ⟨t, ht, _, h2⟩ | ⟨t, f, ht, hd, hb, h2⟩ | ⟨t, ht, hd, hb, h2⟩
    · simp [h1, h2]
    · simp [ht, h2]
    · rw [h2, ht]
      simp only [reduceCtorEq, iff_false]
      intro hf
      simp only [Outcome.fatal.injEq] at hf
      subst hf
      rcases buildRelease_fatal hb with h | h <;> simp at h
    · simp [ht, h2]
  · intro env config w ⟨spec, hspec, hr⟩ hempty
    cases hres : (processConfig env config w).1 with
    | fatal f => exact ⟨f, rfl⟩
    | ok u =>
      have := (processConfig_ok hres).1 spec hspec release hr
      exact absurd (hiff.2 hempty) this

/-! ## C3: a release whose destination exists is skipped -/

/-- C3: when the destination directory of a release exists at the moment `processSpec`
examines it, the loop body does nothing but the `os.Stat`: no checkout, clean or build
command is run, nothing is relocated, the filesystem and the working directory are
untouched, and the list item of the release is appended to the fragment; the loop then goes
on with the remaining releases. -/
theorem existing_destination_skipped (env : Env) (name sw parent : String)
    (release : specsConfigRelease) (rest : List specsConfigRelease) (s : String) (w : World)
    (target : String) (hres : checkoutTarget release = some target)
    (hex : filepath.Join [parent, target] ∈ w.fs) :
    processRelease env name sw parent rest.length release s w
        = (.ok (s ++ listItem target), w.emit (.stat (filepath.Join [parent, target]) false)) ∧
      commands ((processRelease env name sw parent rest.length release s w).2.since w) = [] ∧
      relocations ((processRelease env name sw parent rest.length release s w).2.since w) = [] ∧
      (processRelease env name sw parent rest.length release s w).2.fs = w.fs ∧
      releaseLoop env name sw parent (release :: rest) s w
        = releaseLoop env name sw parent rest (s ++ listItem target)
            (w.emit (.stat (filepath.Join [parent, target]) false)) := by
  have h := processRelease_skip env name sw parent rest.length release s w target hres hex
  refine ⟨h, ?_, ?_, ?_, ?_⟩
  · rw [h, since_eq (d := [_]) rfl]; rfl
  · rw [h, since_eq (d := [_]) rfl]; rfl
  · rw [h]; rfl
  · rw [releaseLoop, h]

/-- Witness for C3: with `v2` of the image spec already published, the loop body for `v2`
only looks at the destination. -/
theorem existing_destination_skipped_witness :
    processRelease calmEnv "image" "/site/docs/git-workspace/image-spec" "/site/docs/specs/image"
        0 (tagged "v2") "<ul>" partlyBuiltWorld
      = (.ok ("<ul>" ++ listItem "v2"),
          partlyBuiltWorld.emit (.stat "/site/docs/specs/image/v2" false)) :=
  (existing_destination_skipped calmEnv "image" "/site/docs/git-workspace/image-spec"
    "/site/docs/specs/image" (tagged "v2") [] "<ul>" partlyBuiltWorld "v2" (by decide)
    (by decide)).1

/-! ## C8: selection of the build command -/

theorem append_ne_of_take (a1 a2 b1 b2 t : String) (n : Nat) (h1 : n ≤ a1.data.length)
    (h2 : n ≤ a2.data.length) (hne : a1.data.take n ≠ a2.data.take n) :
    a1 ++ t ++ b1 ≠ a2 ++ t ++ b2 := by
  intro h
  have h3 := congrArg (fun s => s.data.take n) h
  simp only [String.data_append, List.append_assoc] at h3
  rw [List.take_append_of_le_length h1, List.take_append_of_le_length h2] at h3
  exact hne h3

theorem pipelines_differ (t : String) :
    imagePipeline t ≠ distributionPipeline t ∧ imagePipeline t ≠ runtimePipeline t ∧
      distributionPipeline t ≠ runtimePipeline t :=
  ⟨append_ne_of_take _ _ _ _ t 60 (by decide) (by decide) (by decide),
   append_ne_of_take _ _ _ _ t 60 (by decide) (by decide) (by decide),
   append_ne_of_take _ _ _ _ t 60 (by decide) (by decide) (by decide)⟩

theorem infix_of_split (a t b pre g : String) (mid : List Char)
    (h : a.data = pre.data ++ (g.data ++ mid)) :
    g.data <:+: (a ++ t ++ b).data := by
  refine ⟨pre.data, mid ++ (t.data ++ b.data), ?_⟩
  simp only [String.data_append, h, List.append_assoc]

theorem infix_of_suffix (a t b pre g : String) (h : a.data = pre.data ++ g.data) :
    (g ++ t).data <:+: (a ++ t ++ b).data := by
  refine ⟨pre.data, b.data, ?_⟩
  simp only [String.data_append, h, List.append_assoc]

/-- C8: the build command is the `sh -c` pipeline of the spec exactly when the spec is named
`image`, `distribution` or `runtime`, each name having a pipeline of its own, and it is
`make docs` for every other name.  Each pipeline writes the patched `Makefile.new` and pins
`go get <module>/specs-go@<checkout target>`. -/
theorem buildCommand_selection (name target : String) :
    (name = "image" → buildCommand name target = ["sh", "-c", imagePipeline target]) ∧
      (name = "distribution" →
        buildCommand name target = ["sh", "-c", distributionPipeline target]) ∧
      (name = "runtime" → buildCommand name target = ["sh", "-c", runtimePipeline target]) ∧
      (name ≠ "image" → name ≠ "distribution" → name ≠ "runtime" →
        buildCommand name target = ["make", "docs"]) ∧
      ((buildCommand name target).take 2 = ["sh", "-c"]
        ↔ name = "image" ∨ name = "distribution" ∨ name = "runtime") ∧
      (imagePipeline target ≠ distributionPipeline target ∧
        imagePipeline target ≠ runtimePipeline target ∧
        distributionPipeline target ≠ runtimePipeline target) ∧
      ("> Makefile.new".data <:+: (imagePipeline target).data ∧
        "> Makefile.new".data <:+: (distributionPipeline target).data ∧
        "> Makefile.new".data <:+: (runtimePipeline target).data) ∧
      (("go get github.com/opencontainers/image-spec/specs-go@" ++ target).data
          <:+: (imagePipeline target).data ∧
        ("go get github.com/opencontainers/distribution-spec/specs-go@" ++ target).data
          <:+: (distributionPipeline target).data ∧
        ("go get github.com/opencontainers/runtime-spec/specs-go@" ++ target).data
          <:+: (runtimePipeline target).data) := by
  refine ⟨?_, ?_, ?_, ?_, ?_, pipelines_differ target, ⟨?_, ?_, ?_⟩, ⟨?_, ?_, ?_⟩⟩
  · intro h; simp [buildCommand, h]
  · intro h; subst h; rfl
  · intro h; subst h; rfl
  · intro h1 h2 h3; simp [buildCommand, h1, h2, h3]
  · unfold buildCommand
    simp only []
    split_ifs with h1 h2 h3 <;> simp [*]
  · exact infix_of_split _ target _
      "cat Makefile | sed 's/-it/-i/g' | sed 's|-f gfm|-f gfm --metadata title=\"Open Container Initiative Image Format Specification\"|g' "
      "> Makefile.new"
      " && (make -f Makefile.new docs || (cd .tool/ && go get github.com/opencontainers/image-spec/specs-go@".data
      (by decide)
  · exact infix_of_split _ target _
      "cat Makefile | sed 's/-it/-i/g' | sed 's/go mod init \\&\\& \\\\/\\(rm -f go.* \\&\\& go mod init main \\)\\&\\& \\\\/g' | sed 's|-f gfm|-f gfm --metadata title=\"Open Container Initiative Distribution Specification\"|g'"
      "> Makefile.new"
      " && (make -f Makefile.new docs || (cd .tool/ && go get github.com/opencontainers/distribution-spec/specs-go@".data
      (by decide)
  · exact infix_of_split _ target _
      "cat Makefile | sed 's/-it/-i/g' | sed 's/go mod init \\\\/go mod init main \\\\/g' "
      "> Makefile.new"
      " && (make -f Makefile.new docs || (cd .tool/ && go get github.com/opencontainers/runtime-spec/specs-go@".data
      (by decide)
  · exact infix_of_suffix _ target _
      "cat Makefile | sed 's/-it/-i/g' | sed 's|-f gfm|-f gfm --metadata title=\"Open Container Initiative Image Format Specification\"|g' > Makefile.new && (make -f Makefile.new docs || (cd .tool/ && "
      "go get github.com/opencontainers/image-spec/specs-go@"
      (by decide)
  · exact infix_of_suffix _ target _
      "cat Makefile | sed 's/-it/-i/g' | sed 's/go mod init \\&\\& \\\\/\\(rm -f go.* \\&\\& go mod init main \\)\\&\\& \\\\/g' | sed 's|-f gfm|-f gfm --metadata title=\"Open Container Initiative Distribution Specification\"|g'> Makefile.new && (make -f Makefile.new docs || (cd .tool/ && "
      "go get github.com/opencontainers/distribution-spec/specs-go@"
      (by decide)
  · exact infix_of_suffix _ target _
      "cat Makefile | sed 's/-it/-i/g' | sed 's/go mod init \\\\/go mod init main \\\\/g' > Makefile.new && (make -f Makefile.new docs || (cd .tool/ && "
      "go get github.com/opencontainers/runtime-spec/specs-go@"
      (by decide)

/-! ## C9: the index document -/

/-- C9: when `processConfig` completes, it has written exactly one file, `docs/index.html`
below the directory it was started in, and its content is the fixed header, the fragments
of the specs in declared order and the fixed footer: the document `indexDocument config`,
which depends on the configuration only. -/
theorem index_document_content (env : Env) (config : specsConfig) (w w' : World)
    (h : processConfig env config w = (.ok (), w')) :
    written (w'.since w)
      = [(filepath.Join [filepath.Clean w.cwd, "docs", "index.html"], indexDocument config)] := by
  have h1 : (processConfig env config w).1 = .ok () := by rw [h]
  have h2 := (processConfig_ok h1).2
  rw [h] at h2
  exact h2

/-- Witness for C9: the run of the sample configuration in a fresh world. -/
theorem index_document_content_witness :
    written ((processConfig calmEnv sampleConfig freshWorld).2.since freshWorld)
      = [("/site/docs/index.html", indexDocument sampleConfig)] :=
  index_document_content calmEnv sampleConfig freshWorld
    (processConfig calmEnv sampleConfig freshWorld).2 (by decide)

/-- Witness for C5: with builds that fail, the run of the sample configuration stops at the
first build, the only operation after it being the removal of `Makefile.new`. -/
theorem command_failure_halts_witness :
    (processConfig failingBuildEnv sampleConfig freshWorld).1 = .fatal .cmdRun ∧
      commands [Event.remove "/site/docs/git-workspace/image-spec/Makefile.new" false] = [] ∧
      relocations [Event.remove "/site/docs/git-workspace/image-spec/Makefile.new" false] = [] ∧
      written ((processConfig failingBuildEnv sampleConfig freshWorld).2.since freshWorld) = [] :=
  command_failure_halts failingBuildEnv sampleConfig freshWorld
    [.mkdirAll "/site/docs/git-workspace" true,
     .chdir "/site/docs/git-workspace" true,
     .stat "/site/docs/git-workspace/image-spec" true,
     .exec "/site/docs/git-workspace"
       ["git", "clone", "--depth=1000000", "https://github.com/opencontainers/image-spec.git",
        "/site/docs/git-workspace/image-spec"] true,
     .mkdirAll "/site/docs/specs/image" true,
     .stat "/site/docs/specs/image/v3" true,
     .chdir "/site/docs/git-workspace/image-spec" true,
     .exec "/site/docs/git-workspace/image-spec" ["git", "checkout", "-f", "v3"] true,
     .exec "/site/docs/git-workspace/image-spec" ["git", "clean", "-f", "v3"] true]
    [.remove "/site/docs/git-workspace/image-spec/Makefile.new" false]
    "/site/docs/git-workspace/image-spec" (buildCommand "image" "v3") (by decide)

/-! ## C6: errors of `os.Chdir` and `os.MkdirAll` are not looked at -/

/-- C6 (the code does otherwise): the errors of `os.MkdirAll` and `os.Chdir` are not
looked at.  With something that cannot be entered at the path of the clone and an output
parent directory that cannot be created, both calls fail, yet checkout, clean and build are
run, in the git workspace instead of the clone, and the run only ends when the relocation
fails.  When no directory can be created or entered at all, the clone workspace included,
the commands are run in the directory the process was started in. -/
theorem directory_errors_ignored :
    processConfig brokenDirsEnv { Specs := [{ imageSpec with Releases := [tagged "v1"] }] }
        blockedWorld
      = (.fatal .rename,
         { cwd := "/site/docs/git-workspace"
           fs := ["/site", "/site/docs/git-workspace/image-spec", "/site", "/site/docs",
                  "/site/docs/git-workspace", "/site/docs/git-workspace/output"]
           trace :=
            [.mkdirAll "/site/docs/git-workspace" true,
             .chdir "/site/docs/git-workspace" true,
             .stat "/site/docs/git-workspace/image-spec" false,
             .mkdirAll "/site/docs/specs/image" false,
             .stat "/site/docs/specs/image/v1" true,
             .chdir "/site/docs/git-workspace/image-spec" false,
             .exec "/site/docs/git-workspace" ["git", "checkout", "-f", "v1"] true,
             .exec "/site/docs/git-workspace" ["git", "clean", "-f", "v1"] true,
             .exec "/site/docs/git-workspace" (buildCommand "image" "v1") true,
             .remove "/site/docs/git-workspace/Makefile.new" false,
             .rename "/site/docs/git-workspace/output" "/site/docs/specs/image/v1" false
               false] }) ∧
      (processConfig noDirsEnv { Specs := [{ imageSpec with Releases := [tagged "v1"] }] }
          freshWorld).2.trace
        = [.mkdirAll "/site/docs/git-workspace" false,
           .chdir "/site/docs/git-workspace" false,
           .stat "/site/image-spec" true,
           .exec "/site" ["git", "clone", "--depth=1000000",
             "https://github.com/opencontainers/image-spec.git", "/site/image-spec"] true,
           .mkdirAll "/specs/image" false,
           .stat "/specs/image/v1" true,
           .chdir "/site/image-spec" false,
           .exec "/site" ["git", "checkout", "-f", "v1"] true,
           .exec "/site" ["git", "clean", "-f", "v1"] true,
           .exec "/site" (buildCommand "image" "v1") true,
           .remove "/site/Makefile.new" false,
           .rename "/site/output" "/specs/image/v1" false false] := by
  decide

/-! ## C7: the clone is made once, and only when `os.Stat` reports nothing there -/

theorem ensureCloned_trace (env : Env) (remote sw : String) (w : World) :
    (ensureCloned env remote sw w).2.trace
      = w.trace ++ (.stat sw (osStat env sw w).1 ::
          if (osStat env sw w).1 = true then
            [.exec w.cwd ["git", "clone", "--depth=1000000", remote, sw]
              (env.exec (w.emit (.stat sw true)) ["git", "clone", "--depth=1000000", remote, sw]).1]
          else []) := by
  unfold ensureCloned
  cases hs : (osStat env sw w).1 with
  | false => simp [osStat_snd, hs]
  | true =>
    simp only [osStat_snd, hs, Bool.true_eq_false, if_false, if_true]
    split_ifs <;> simp [osExec]

theorem osStat_fst_iff (env : Env) (p : String) (w : World) :
    (osStat env p w).1 = true ↔ ¬(p ∈ w.fs ∨ env.statErr w p = true) := by
  simp [osStat]

/-- C7 (as amended): `processSpec` keeps the clone at
`filepath.Join(<working directory at entry>, base)`, `base` being the last element of the
remote with one trailing `.git` removed.  Among the commands it runs there is a `git clone`
exactly when `os.Stat` reports that nothing exists at that path (`os.IsNotExist`), and then
exactly one, from the remote of the spec into that path.  No clone is made when something
exists at the path, nor when `os.Stat` fails with another error. -/
theorem clone_iff_reported_absent (env : Env) (spec : specsConfigSpec) (w : World)
    (hwd : env.getwdOk w = true) :
    clones ((processSpec env spec w).2.since w)
      = (if filepath.Join [filepath.Clean w.cwd,
              strings.TrimSuffix (filepath.Base spec.Remote) ".git"] ∈ w.fs ∨
            env.statErr w (filepath.Join [filepath.Clean w.cwd,
              strings.TrimSuffix (filepath.Base spec.Remote) ".git"]) = true
         then []
         else [["git", "clone", "--depth=1000000", spec.Remote,
                filepath.Join [filepath.Clean w.cwd,
                  strings.TrimSuffix (filepath.Base spec.Remote) ".git"]]]) ∧
      strings.TrimSuffix (filepath.Base "https://github.com/opencontainers/image-spec.git")
        ".git" = "image-spec" ∧
      strings.TrimSuffix (filepath.Base "https://example.org/specs/runtime.git.git/") ".git"
        = "runtime.git" := by
  refine ⟨?_, by decide, by decide⟩
  have hc := ensureCloned_trace env spec.Remote (specWorkspacePath (filepath.Clean w.cwd) spec) w
  have hclones : clones ((ensureCloned env spec.Remote
      (specWorkspacePath (filepath.Clean w.cwd) spec) w).2.since w)
      = (if specWorkspacePath (filepath.Clean w.cwd) spec ∈ w.fs ∨
            env.statErr w (specWorkspacePath (filepath.Clean w.cwd) spec) = true then []
         else [["git", "clone", "--depth=1000000", spec.Remote,
                specWorkspacePath (filepath.Clean w.cwd) spec]]) := by
    rw [since_eq hc]
    by_cases hs : (osStat env (specWorkspacePath (filepath.Clean w.cwd) spec) w).1 = true
    · rw [if_pos hs, if_neg ((osStat_fst_iff env _ w).1 hs)]
      simp [clones, commands, isClone]
    · rw [if_neg hs, if_pos (not_not.1 (fun h => hs ((osStat_fst_iff env _ w).2 h)))]
      simp [clones, commands]
  obtain ⟨dl, hdl, hl⟩ := releaseLoop_sound (loop_rules env) spec.Name
    (specWorkspacePath (filepath.Clean w.cwd) spec)
    (specOutputParentPath (filepath.Clean w.cwd) spec) spec.Releases.reverse
    ("<hr/><h2>" ++ spec.Name ++ "</h2>\n" ++ "<ul>")
    (osMkdirAll env (specOutputParentPath (filepath.Clean w.cwd) spec)
      (ensureCloned env spec.Remote (specWorkspacePath (filepath.Clean w.cwd) spec) w).2)
  have hpre := since_of_prefix (w := w) ⟨_, hc.symm⟩
  show _ = (if specWorkspacePath (filepath.Clean w.cwd) spec ∈ w.fs ∨
      env.statErr w (specWorkspacePath (filepath.Clean w.cwd) spec) = true then []
    else [["git", "clone", "--depth=1000000", spec.Remote,
      specWorkspacePath (filepath.Clean w.cwd) spec]])
  rw [← hclones]
  rcases processSpec_cases env spec w with
    ⟨h0, _⟩ | ⟨_, f, h1, h2⟩ | ⟨_, h1, f, h3, h2⟩ | ⟨_, h1, s1, h3, h2⟩
  · rw [hwd] at h0; simp at h0
  · rw [h2]
  · rw [h2, since_eq (d := _ ++ ([_] ++ dl)) (by
      rw [hdl, osMkdirAll_trace, hpre]; simp only [List.append_assoc]; rfl)]
    simp only [clones_append, clones_of_loopEvent hl, List.append_nil]
    simp [clones, commands]
  · rw [h2, since_eq (d := _ ++ ([_] ++ dl ++ [_])) (by
      rw [osChdir_trace, hdl, osMkdirAll_trace, hpre]; simp only [List.append_assoc]; rfl)]
    simp only [clones_append, clones_of_loopEvent hl, List.append_nil]
    simp [clones, commands]

/-- Witness for C7: in a fresh git workspace the image spec is cloned once, into
`image-spec` below the working directory. -/
theorem clone_iff_reported_absent_witness :
    clones ((processSpec calmEnv imageSpec workspaceWorld).2.since workspaceWorld)
      = [["git", "clone", "--depth=1000000", "https://github.com/opencontainers/image-spec.git",
          "/site/docs/git-workspace/image-spec"]] :=
  (clone_iff_reported_absent calmEnv imageSpec workspaceWorld (by decide)).1

/-- C7 as first stated fails: for a spec whose remote ends in a name of 256 characters,
nothing exists at the path of the clone, `os.Stat` fails because the name is too long, and
`processSpec` runs no `git clone` (and goes on to build the release). -/
theorem long_name_not_cloned :
    longNameEnv.getwdOk workspaceWorld = true ∧
      specWorkspacePath (filepath.Clean workspaceWorld.cwd) longNameSpec ∉ workspaceWorld.fs ∧
      clones ((processSpec longNameEnv longNameSpec workspaceWorld).2.since workspaceWorld)
        = [] ∧
      builds ((processSpec longNameEnv longNameSpec workspaceWorld).2.since workspaceWorld)
        = [["make", "docs"]] := by
  decide

/-! ## C2: releases are processed last declared first -/

theorem ensureCloned_fatal {env : Env} {remote sw : String} {w : World} {f : Fatal}
    (h : (ensureCloned env remote sw w).1 = .fatal f) : f = .cmdRun := by
  unfold ensureCloned at h
  simp only [] at h
  split_ifs at h
  all_goals simp at h
  all_goals simp [← h]

theorem releaseLoop_fatal {env : Env} {name sw parent : String} {rs : List specsConfigRelease}
    {s : String} {w : World} {f : Fatal}
    (h : (releaseLoop env name sw parent rs s w).1 = .fatal f) :
    (∃ r ∈ rs, checkoutTarget r = none) ∨ f = .cmdRun ∨ f = .rename := by
  induction rs generalizing s w with
  | nil => simp [releaseLoop] at h
  | cons r rest ih =>
    rcases releaseLoop_cons_cases env name sw parent r rest s w with ⟨f1, h1, h2⟩ | ⟨s2, h1, h2⟩
    · rw [h2] at h
      simp only [Outcome.fatal.injEq] at h
      subst h
      rcases processRelease_cases env name sw parent rest.length r s w with
        ⟨hr, h3⟩ | ⟨t, ht, _, h3⟩ | ⟨t, f2, ht, hd, hb, h3⟩ | ⟨t, ht, hd, hb, h3⟩
      · exact Or.inl ⟨r, by simp, hr⟩
      · rw [h3] at h1; simp at h1
      · rw [h3] at h1
        simp only [Outcome.fatal.injEq] at h1
        subst h1
        exact Or.inr (buildRelease_fatal hb)
      · rw [h3] at h1; simp at h1
    · rw [h2] at h
      rcases ih h with ⟨r', hr', hn⟩ | hf
      · exact Or.inl ⟨r', List.mem_cons_of_mem _ hr', hn⟩
      · exact Or.inr hf

theorem processSpec_fatal {env : Env} {spec : specsConfigSpec} {w : World} {f : Fatal}
    (h : (processSpec env spec w).1 = .fatal f) :
    env.getwdOk w = false ∨ (∃ r ∈ spec.Releases, checkoutTarget r = none) ∨
      f = .cmdRun ∨ f = .rename := by
  rcases processSpec_cases env spec w with
    ⟨h0, _⟩ | ⟨_, f1, h1, h2⟩ | ⟨_, h1, f1, h3, h2⟩ | ⟨_, h1, s1, h3, h2⟩
  · exact Or.inl h0
  · rw [h2] at h
    simp only [Outcome.fatal.injEq] at h
    subst h
    exact Or.inr (Or.inr (Or.inl (ensureCloned_fatal h1)))
  · rw [h2] at h
    simp only [Outcome.fatal.injEq] at h
    subst h
    rcases releaseLoop_fatal h3 with ⟨r, hr, hn⟩ | hf
    · exact Or.inr (Or.inl ⟨r, List.mem_reverse.1 hr, hn⟩)
    · exact Or.inr (Or.inr hf)
  · rw [h2] at h; simp at h

/-- A step that meets no failure, no unresolvable release and a working directory returns. -/
theorem processSpec_returns {env : Env} {spec : specsConfigSpec} {w : World}
    (hres : ∀ r ∈ spec.Releases, checkoutTarget r ≠ none) (hwd : env.getwdOk w = true)
    (hok : ∀ e ∈ (processSpec env spec w).2.since w, e.failed = false) :
    (processSpec env spec w).1 = .ok (specFragment spec) := by
  cases hr : (processSpec env spec w).1 with
  | ok frag => rw [(processSpec_ok hr).2]
  | fatal f =>
    exfalso
    obtain ⟨d, hd, hm⟩ := processSpec_sound (shape_rules env).toSpecRules spec w
    rw [since_eq hd] at hok
    rw [hr] at hm
    rcases hm with ⟨_, hext⟩ | ⟨pre, x, tail, hdx, _, hx, _, _⟩
    · rcases processSpec_fatal hr with h | ⟨r, hr', hn⟩ | h | h
      · rw [hwd] at h; simp at h
      · exact hres r hr' hn
      · subst h; simp [Fatal.external] at hext
      · subst h; simp [Fatal.external] at hext
    · have := hok x (by rw [hdx]; simp)
      rw [hx] at this
      simp at this

theorem buildRelease_built {env : Env} {name sw dst t : String} {w : World}
    (h : (buildRelease env name sw dst t w).1 = .ok ()) :
    ∃ d, (buildRelease env name sw dst t w).2.trace = w.trace ++ d ∧ examined d = [] ∧
      builds d = [buildCommand name t] := by
  unfold buildRelease at h ⊢
  simp only [] at h ⊢
  split_ifs at h ⊢
  all_goals simp at h
  refine ⟨_, by simp only [osExec_trace, osChdir_trace, osRemove_trace, osRename_trace,
    List.append_assoc]; rfl, ?_⟩
  simp [examined, builds, commands, isBuild]
  exact buildCommand_head name t

theorem processRelease_built {env : Env} {name sw parent : String} {i : Nat}
    {r : specsConfigRelease} {s s1 : String} {w : World}
    (h : (processRelease env name sw parent i r s w).1 = .ok s1) :
    ∃ t flag d, checkoutTarget r = some t ∧
      (processRelease env name sw parent i r s w).2.trace = w.trace ++ d ∧
      examined d = [(filepath.Join [parent, t], flag)] ∧
      builds d = (if flag = true then [buildCommand name t] else []) := by
  rcases processRelease_cases env name sw parent i r s w with
    ⟨_, h2⟩ | ⟨t, ht, _, h2⟩ | ⟨t, f, _, hd, hb, h2⟩ | ⟨t, ht, hd, hb, h2⟩
  · rw [h2] at h; simp at h
  · rw [h2]
    exact ⟨t, false, [_], ht, rfl, by simp [examined], by simp [builds, commands]⟩
  · rw [h2] at h; simp at h
  · rw [h2]
    obtain ⟨d, hd1, he, hb1⟩ := buildRelease_built hb
    refine ⟨t, true, [_] ++ d, ht, by rw [hd1, trace_emit, List.append_assoc], ?_, ?_⟩
    · simp [examined, he]
    · simp [builds, commands] at hb1 ⊢
      exact hb1

theorem releaseLoop_built {env : Env} {name sw parent : String} {rs : List specsConfigRelease}
    {s s1 : String} {w : World}
    (h : (releaseLoop env name sw parent rs s w).1 = .ok s1) :
    ∃ flags d, flags.length = rs.length ∧
      (releaseLoop env name sw parent rs s w).2.trace = w.trace ++ d ∧
      examined d
        = ((rs.filterMap checkoutTarget).map (fun t => filepath.Join [parent, t])).zip flags ∧
      builds d = (((rs.filterMap checkoutTarget).zip flags).filter (fun p => p.2)).map
        (fun p => buildCommand name p.1) := by
  induction rs generalizing s w with
  | nil => exact ⟨[], [], rfl, by simp [releaseLoop], rfl, rfl⟩
  | cons r rest ih =>
    rcases releaseLoop_cons_cases env name sw parent r rest s w with ⟨f, h1, h2⟩ | ⟨s2, h1, h2⟩
    · rw [h2] at h; simp at h
    · rw [h2] at h ⊢
      obtain ⟨t, flag, d1, ht, hd1, he1, hb1⟩ := processRelease_built h1
      obtain ⟨flags, d2, hlen, hd2, he2, hb2⟩ := ih h
      refine ⟨flag :: flags, d1 ++ d2, by simp [hlen], by rw [hd2, hd1, List.append_assoc],
        ?_, ?_⟩
      · rw [examined_append, he1, he2, List.filterMap_cons_some ht]
        simp
      · rw [builds_append, hb1, hb2, List.filterMap_cons_some ht]
        cases flag <;> simp

theorem filterMap_length_of_resolved {rs : List specsConfigRelease}
    (h : ∀ r ∈ rs, checkoutTarget r ≠ none) :
    (rs.filterMap checkoutTarget).length = rs.length := by
  induction rs with
  | nil => rfl
  | cons r rest ih =>
    cases hr : checkoutTarget r with
    | none => exact absurd hr (h r (by simp))
    | some t =>
      rw [List.filterMap_cons_some hr, List.length_cons, List.length_cons,
        ih (fun r' hr' => h r' (List.mem_cons_of_mem _ hr'))]

/-- C2 (as amended): for a spec whose releases all resolve, run where the working directory
can be read and neither a command nor a relocation (`os.Rename`) fails, `processSpec`
returns the heading followed by the list items of the resolved targets in the order last
declared first.  It examines the destinations in that same order, and the build commands it
runs are, in that order, those of the releases whose destination `os.Stat` reported as not
existing (`flags` holds the answers of `os.IsNotExist`).  For the releases `v1, v2, v3` the
order is `v3, v2, v1`. -/
theorem releases_processed_in_reverse (env : Env) (spec : specsConfigSpec) (w : World)
    (hres : ∀ r ∈ spec.Releases, checkoutTarget r ≠ none) (hwd : env.getwdOk w = true)
    (hok : ∀ e ∈ (processSpec env spec w).2.since w, e.failed = false) :
    ∃ flags : List Bool, flags.length = spec.Releases.length ∧
      (spec.Releases.reverse.filterMap checkoutTarget).length = spec.Releases.length ∧
      (processSpec env spec w).1
        = .ok ("<hr/><h2>" ++ spec.Name ++ "</h2>\n<ul>"
            ++ String.join ((spec.Releases.reverse.filterMap checkoutTarget).map listItem)
            ++ "</ul>") ∧
      (examined ((processSpec env spec w).2.since w)).tail
        = ((spec.Releases.reverse.filterMap checkoutTarget).map
            (fun t => filepath.Join [specOutputParentPath (filepath.Clean w.cwd) spec, t])).zip
            flags ∧
      builds ((processSpec env spec w).2.since w)
        = (((spec.Releases.reverse.filterMap checkoutTarget).zip flags).filter
            (fun p => p.2)).map (fun p => buildCommand spec.Name p.1) := by
  have hret := processSpec_returns hres hwd hok
  have hc := ensureCloned_trace env spec.Remote (specWorkspacePath (filepath.Clean w.cwd) spec) w
  rcases processSpec_cases env spec w with
    ⟨h0, _⟩ | ⟨_, f, h1, h2⟩ | ⟨_, h1, f, h3, h2⟩ | ⟨_, h1, s1, h3, h2⟩
  · rw [hwd] at h0; simp at h0
  · rw [h2] at hret; simp at hret
  · rw [h2] at hret; simp at hret
  · obtain ⟨flags, d, hlen, hd, he, hb⟩ := releaseLoop_built h3
    refine ⟨flags, by simpa using hlen, ?_, hret, ?_, ?_⟩
    · rw [filterMap_length_of_resolved (fun r hr => hres r (List.mem_reverse.1 hr))]
      simp
    · rw [h2, since_eq (d := _ ++ ([_] ++ d ++ [_])) (by
        rw [osChdir_trace, hd, osMkdirAll_trace, hc]; simp only [List.append_assoc]; rfl)]
      simp only [examined_append, he]
      split_ifs <;> simp [examined]
    · rw [h2, since_eq (d := _ ++ ([_] ++ d ++ [_])) (by
        rw [osChdir_trace, hd, osMkdirAll_trace, hc]; simp only [List.append_assoc]; rfl)]
      simp only [builds_append, hb]
      split_ifs <;> simp [builds, commands, isBuild]

/-- Witness for C2: the image spec with releases `v1, v2, v3`, `v2` being published already:
the items come out as `v3, v2, v1` and the builds are those of `v3` and `v1`. -/
theorem releases_processed_in_reverse_witness :
    (processSpec calmEnv imageSpec partlyBuiltWorld).1
        = .ok ("<hr/><h2>image</h2>\n<ul>" ++ listItem "v3" ++ listItem "v2" ++ listItem "v1"
            ++ "</ul>") ∧
      builds ((processSpec calmEnv imageSpec partlyBuiltWorld).2.since partlyBuiltWorld)
        = [buildCommand "image" "v3", buildCommand "image" "v1"] := by
  obtain ⟨flags, _, _, h1, h2, h3⟩ :=
    releases_processed_in_reverse calmEnv imageSpec partlyBuiltWorld (by decide) (by decide)
      (by decide)
  refine ⟨by rw [h1]; decide, by decide⟩

/-- C2 as first stated fails.  The releases `v1, v2, v3` all resolve and every command of
the run exits with success, but the build of `v3` leaves no `output` directory: the
relocation fails, `processSpec` ends in `log.Fatalf` without returning any list item, and
`v2` and `v1` are never built although nothing exists at their destinations.  And for a
release whose tag has 256 characters nothing exists at the destination, no command fails and
the run completes, yet the release is not built, `os.Stat` having failed on the long name.
And where `os.Getwd` fails, `processSpec` ends in `log.Fatalf` before running any command. -/
theorem silent_build_stops_run :
    ((∀ r ∈ imageSpec.Releases, checkoutTarget r ≠ none) ∧
      (∀ e ∈ (processSpec noOutputEnv imageSpec workspaceWorld).2.since workspaceWorld,
        e.commandFailed = false) ∧
      (processSpec noOutputEnv imageSpec workspaceWorld).1 = .fatal .rename ∧
      builds ((processSpec noOutputEnv imageSpec workspaceWorld).2.since workspaceWorld)
        = [buildCommand "image" "v3"] ∧
      (∀ t ∈ ["v3", "v2", "v1"],
        filepath.Join [specOutputParentPath (filepath.Clean workspaceWorld.cwd) imageSpec, t]
          ∉ (processSpec noOutputEnv imageSpec workspaceWorld).2.fs)) ∧
    ((∀ r ∈ longTagSpec.Releases, checkoutTarget r ≠ none) ∧
      (∀ e ∈ (processSpec longNameEnv longTagSpec workspaceWorld).2.since workspaceWorld,
        e.commandFailed = false) ∧
      (processSpec longNameEnv longTagSpec workspaceWorld).1
        = .ok ("<hr/><h2>image</h2>\n<ul>" ++ listItem longName ++ "</ul>") ∧
      filepath.Join [specOutputParentPath (filepath.Clean workspaceWorld.cwd) longTagSpec,
          longName] ∉ (processSpec longNameEnv longTagSpec workspaceWorld).2.fs ∧
      builds ((processSpec longNameEnv longTagSpec workspaceWorld).2.since workspaceWorld)
        = []) ∧
    ((∀ r ∈ imageSpec.Releases, checkoutTarget r ≠ none) ∧
      (∀ e ∈ (processSpec noGetwdEnv imageSpec workspaceWorld).2.since workspaceWorld,
        e.commandFailed = false) ∧
      (processSpec noGetwdEnv imageSpec workspaceWorld).1 = .fatal .getwd) := by
  decide

/-! ## C4: a second run finds everything in place -/

theorem osMkdirAll_fs_mono (env : Env) (p : String) (w : World) :
    ∀ q ∈ w.fs, q ∈ (osMkdirAll env p w).fs := by
  intro q hq
  unfold osMkdirAll
  split_ifs <;> simp [hq]

theorem osChdir_cwd_of_ok (env : Env) (p : String) (w : World) (h : env.chdirOk w p = true) :
    (osChdir env p w).cwd = p := by
  simp [osChdir, h]

theorem releaseLoop_idle (env : Env) (name sw parent : String) (rs : List specsConfigRelease)
    (s : String) (w : World)
    (h : ∀ r ∈ rs, ∃ t, checkoutTarget r = some t ∧ filepath.Join [parent, t] ∈ w.fs) :
    ∃ d s1, (releaseLoop env name sw parent rs s w).1 = .ok s1 ∧
      (releaseLoop env name sw parent rs s w).2.trace = w.trace ++ d ∧
      (releaseLoop env name sw parent rs s w).2.fs = w.fs ∧
      commands d = [] ∧ relocations d = [] := by
  induction rs generalizing s w with
  | nil => exact ⟨[], s, rfl, by simp [releaseLoop], rfl, rfl, rfl⟩
  | cons r rest ih =>
    obtain ⟨t, ht, hd⟩ := h r (by simp)
    have hskip : releaseLoop env name sw parent (r :: rest) s w
        = releaseLoop env name sw parent rest (s ++ listItem t)
            (w.emit (.stat (filepath.Join [parent, t]) false)) := by
      rw [releaseLoop, processRelease_skip env name sw parent rest.length r s w t ht hd]
    obtain ⟨d, s1, h1, h2, h3, h4, h5⟩ := ih (s ++ listItem t)
      (w.emit (.stat (filepath.Join [parent, t]) false))
      (fun r' hr' => by simpa using h r' (List.mem_cons_of_mem _ hr'))
    rw [hskip]
    exact ⟨[_] ++ d, s1, h1, by rw [h2, trace_emit, List.append_assoc], by rw [h3]; rfl,
      by simp [commands, h4], by simp [relocations, h5]⟩

theorem ensureCloned_idle (env : Env) (remote sw : String) (w : World) (h : sw ∈ w.fs) :
    ensureCloned env remote sw w = (.ok (), w.emit (.stat sw false)) := by
  unfold ensureCloned
  simp [osStat_snd, osStat_present env h]

theorem processSpec_idle (env : Env) (spec : specsConfigSpec) (w : World)
    (hwd : env.getwdOk w = true)
    (hclone : specWorkspacePath (filepath.Clean w.cwd) spec ∈ w.fs)
    (hdest : ∀ r ∈ spec.Releases, ∃ t, checkoutTarget r = some t ∧
      filepath.Join [specOutputParentPath (filepath.Clean w.cwd) spec, t] ∈ w.fs) :
    ∃ d frag, (processSpec env spec w).1 = .ok frag ∧
      (processSpec env spec w).2.trace = w.trace ++ d ∧
      (∀ q ∈ w.fs, q ∈ (processSpec env spec w).2.fs) ∧
      commands d = [] ∧ relocations d = [] := by
  have hec := ensureCloned_idle env spec.Remote _ w hclone
  obtain ⟨d, s1, h1, h2, h3, h4, h5⟩ := releaseLoop_idle env spec.Name
    (specWorkspacePath (filepath.Clean w.cwd) spec)
    (specOutputParentPath (filepath.Clean w.cwd) spec) spec.Releases.reverse
    ("<hr/><h2>" ++ spec.Name ++ "</h2>\n" ++ "<ul>")
    (osMkdirAll env (specOutputParentPath (filepath.Clean w.cwd) spec)
      (w.emit (.stat (specWorkspacePath (filepath.Clean w.cwd) spec) false)))
    (fun r hr => by
      obtain ⟨t, ht, hd⟩ := hdest r (List.mem_reverse.1 hr)
      exact ⟨t, ht, osMkdirAll_fs_mono env _ _ _ (by simpa using hd)⟩)
  rcases processSpec_cases env spec w with
    ⟨h0, _⟩ | ⟨_, f, h6, _⟩ | ⟨_, _, f, h6, _⟩ | ⟨_, _, s2, h6, h7⟩
  · rw [hwd] at h0; simp at h0
  · rw [hec] at h6; simp at h6
  · rw [hec] at h6; rw [h1] at h6; simp at h6
  · rw [hec] at h6 h7
    rw [h7]
    exact ⟨[_] ++ ([_] ++ d ++ [_]), _, rfl,
      by rw [osChdir_trace, h2, osMkdirAll_trace, trace_emit]; simp only [List.append_assoc]; rfl,
      fun q hq => by
        rw [osChdir_fs, h3]
        exact osMkdirAll_fs_mono env _ _ _ (by simpa using hq),
      by simp [commands, h4], by simp [relocations, h5]⟩

theorem specLoop_idle (env : Env) (gw : String) (specs : List specsConfigSpec) (s : String)
    (w : World) (hwd : ∀ w, env.getwdOk w = true) (hcd : ∀ w p, env.chdirOk w p = true)
    (hclone : ∀ spec ∈ specs, specWorkspacePath (filepath.Clean gw) spec ∈ w.fs)
    (hdest : ∀ spec ∈ specs, ∀ r ∈ spec.Releases, ∃ t, checkoutTarget r = some t ∧
      filepath.Join [specOutputParentPath (filepath.Clean gw) spec, t] ∈ w.fs) :
    ∃ d s1, (specLoop env gw specs s w).1 = .ok s1 ∧
      (specLoop env gw specs s w).2.trace = w.trace ++ d ∧
      commands d = [] ∧ relocations d = [] := by
  induction specs generalizing s w with
  | nil => exact ⟨[], s, rfl, by simp [specLoop], rfl, rfl⟩
  | cons spec rest ih =>
    have hcwd : (osChdir env gw w).cwd = gw := osChdir_cwd_of_ok env gw w (hcd w gw)
    obtain ⟨d1, frag, h1, h2, h3, h4, h5⟩ := processSpec_idle env spec (osChdir env gw w)
      (hwd _) (by rw [hcwd, osChdir_fs]; exact hclone spec (by simp))
      (by rw [hcwd, osChdir_fs]; exact hdest spec (by simp))
    rcases specLoop_cons_cases env gw spec rest s w with ⟨f, h6, _⟩ | ⟨frag2, h6, h7⟩
    · rw [h1] at h6; simp at h6
    · rw [h7]
      obtain ⟨d2, s1, g1, g2, g3, g4⟩ := ih (s ++ frag2) (processSpec env spec (osChdir env gw w)).2
        (fun sp hsp => h3 _ (by rw [osChdir_fs]; exact hclone sp (List.mem_cons_of_mem _ hsp)))
        (fun sp hsp r hr => by
          obtain ⟨t, ht, hd⟩ := hdest sp (List.mem_cons_of_mem _ hsp) r hr
          exact ⟨t, ht, h3 _ (by rw [osChdir_fs]; exact hd)⟩)
      exact ⟨[_] ++ d1 ++ d2, s1, g1,
        by rw [g2, h2, osChdir_trace]; simp only [List.append_assoc]; rfl,
        by simp [commands, h4, g3], by simp [relocations, h5, g4]⟩

theorem osWriteFile_fst (env : Env) (p c : String) (w : World) :
    (osWriteFile env p c w).1 = env.writeFileOk w p := by
  unfold osWriteFile
  split_ifs with h <;> simp [h]

theorem since_of_fresh {w w' : World} (h : w.trace = []) : w'.since w = w'.trace := by
  simp [World.since, h]

/-- C4: let a first run of `processConfig` complete and leave every clone directory and
every release destination in place.  Then a second run of the same configuration, started
as a new process in the same directory on the filesystem the first run left, in an
environment where the working directory can be read and changed and the index can be
written, completes as well, runs no command at all (no clone, checkout, clean or build),
relocates nothing, and writes the same index document to the same path. -/
theorem second_run_idle (env : Env) (config : specsConfig) (w0 w1 : World)
    (hrun : processConfig env config w0 = (.ok (), w1))
    (hwd : ∀ w, env.getwdOk w = true) (hcd : ∀ w p, env.chdirOk w p = true)
    (hwr : ∀ w p, env.writeFileOk w p = true)
    (hclone : ∀ spec ∈ config.Specs,
      specWorkspacePath
        (filepath.Clean (filepath.Join [filepath.Clean w0.cwd, "docs", "git-workspace"])) spec
        ∈ w1.fs)
    (hdest : ∀ spec ∈ config.Specs, ∀ t ∈ spec.Releases.filterMap checkoutTarget,
      filepath.Join [specOutputParentPath
        (filepath.Clean (filepath.Join [filepath.Clean w0.cwd, "docs", "git-workspace"])) spec, t]
        ∈ w1.fs) :
    (processConfig env config (restart w0 w1)).1 = .ok () ∧
      commands (processConfig env config (restart w0 w1)).2.trace = [] ∧
      relocations (processConfig env config (restart w0 w1)).2.trace = [] ∧
      written (processConfig env config (restart w0 w1)).2.trace = written (w1.since w0) := by
  have hfirst : (processConfig env config w0).1 = .ok () := by rw [hrun]
  obtain ⟨hres, hw1⟩ := processConfig_ok hfirst
  rw [hrun] at hw1
  have hmono := osMkdirAll_fs_mono env
    (filepath.Join [filepath.Clean w0.cwd, "docs", "git-workspace"]) (restart w0 w1)
  obtain ⟨d, s1, h1, h2, h3, h4⟩ := specLoop_idle env
    (filepath.Join [filepath.Clean w0.cwd, "docs", "git-workspace"]) config.Specs indexHeader
    (osMkdirAll env (filepath.Join [filepath.Clean w0.cwd, "docs", "git-workspace"])
      (restart w0 w1)) hwd hcd
    (fun spec hs => hmono _ (hclone spec hs))
    (fun spec hs r hr => by
      cases ht : checkoutTarget r with
      | none => exact absurd ht (hres spec hs r hr)
      | some t => exact ⟨t, rfl, hmono _ (hdest spec hs t (List.mem_filterMap.2 ⟨r, hr, ht⟩))⟩)
  have hsecond : (processConfig env config (restart w0 w1)).1 = .ok () ∧
      (processConfig env config (restart w0 w1)).2.trace
        = [.mkdirAll (filepath.Join [filepath.Clean w0.cwd, "docs", "git-workspace"])
            (env.mkdirAllOk (restart w0 w1)
              (filepath.Join [filepath.Clean w0.cwd, "docs", "git-workspace"]))] ++ d ++
          [.chdir (filepath.Clean w0.cwd) true,
           .writeFile (filepath.Join [filepath.Clean w0.cwd, "docs", "index.html"])
            (s1 ++ indexFooter) true] := by
    rcases processConfig_cases env config (restart w0 w1) with
      ⟨h0, _⟩ | ⟨_, f, h5, _⟩ | ⟨_, s2, h5, h6⟩
    · rw [hwd] at h0; simp at h0
    · change (specLoop env (filepath.Join [filepath.Clean w0.cwd, "docs", "git-workspace"])
        config.Specs indexHeader (osMkdirAll env
          (filepath.Join [filepath.Clean w0.cwd, "docs", "git-workspace"])
          (restart w0 w1))).1 = _ at h5
      rw [h1] at h5; simp at h5
    · change (specLoop env (filepath.Join [filepath.Clean w0.cwd, "docs", "git-workspace"])
        config.Specs indexHeader (osMkdirAll env
          (filepath.Join [filepath.Clean w0.cwd, "docs", "git-workspace"])
          (restart w0 w1))).1 = _ at h5
      rw [h1] at h5
      simp only [Outcome.ok.injEq] at h5
      subst h5
      rw [h6]
      simp only [osWriteFile_fst, hwr, osWriteFile_trace, osChdir_trace, hcd]
      refine ⟨by simp, ?_⟩
      change (specLoop env (filepath.Join [filepath.Clean w0.cwd, "docs", "git-workspace"])
        config.Specs indexHeader (osMkdirAll env
          (filepath.Join [filepath.Clean w0.cwd, "docs", "git-workspace"])
          (restart w0 w1))).2.trace ++ _ ++ _ = _
      rw [h2, osMkdirAll_trace]
      simp [restart]
  refine ⟨hsecond.1, ?_, ?_, ?_⟩
  · rw [hsecond.2]; simp [commands, h3]
  · rw [hsecond.2]; simp [relocations, h4]
  · have := (processConfig_ok hsecond.1).2
    rw [since_of_fresh rfl] at this
    rw [this, hw1]
    rfl

/-- Witness for C4: the sample configuration run twice from a fresh world. -/
theorem second_run_idle_witness :
    (processConfig calmEnv sampleConfig
        (restart freshWorld (processConfig calmEnv sampleConfig freshWorld).2)).1 = .ok () ∧
      commands (processConfig calmEnv sampleConfig
        (restart freshWorld (processConfig calmEnv sampleConfig freshWorld).2)).2.trace = [] ∧
      relocations (processConfig calmEnv sampleConfig
        (restart freshWorld (processConfig calmEnv sampleConfig freshWorld).2)).2.trace = [] ∧
      written (processConfig calmEnv sampleConfig
        (restart freshWorld (processConfig calmEnv sampleConfig freshWorld).2)).2.trace
        = written ((processConfig calmEnv sampleConfig freshWorld).2.since freshWorld) :=
  second_run_idle calmEnv sampleConfig freshWorld
    (processConfig calmEnv sampleConfig freshWorld).2 (Prod.ext (by decide) rfl)
    (fun _ => rfl) (fun _ _ => rfl) (fun _ _ => rfl) (by decide) (by decide)

/-! ## C10: destinations are relocated to once, and only when absent -/

theorem osRemove_fs_subset (env : Env) (n : String) (w : World) :
    ∀ p ∈ (osRemove env n w).fs, p ∈ w.fs := by
  intro p hp
  unfold osRemove at hp
  simp only [] at hp
  split_ifs at hp
  · simp at hp; exact hp.1
  · exact hp

theorem buildRelease_fresh {env : Env} {D : List String} (hc : NoCommandCreates env D)
    (name sw dst t : String) (w : World) (hd : dst ∉ w.fs) :
    Always (freshTarget D) w (buildRelease env name sw dst t w).1.reason
      (buildRelease env name sw dst t w).2 := by
  have key : dst ∈ D → dst ∉ (osRemove env "Makefile.new"
      (osExec env (buildCommand name t) (osExec env ["git", "clean", "-f", t]
        (osExec env ["git", "checkout", "-f", t] (osChdir env sw w)).2).2).2).fs := by
    intro hD hmem
    have h1 := osRemove_fs_subset env _ _ _ hmem
    rw [osExec_fs] at h1
    have h2 := hc _ _ _ (isClone_buildCommand name t) hD h1
    rw [osExec_fs] at h2
    have h3 := hc _ _ _ (by simp [isClone]) hD h2
    rw [osExec_fs] at h3
    have h4 := hc _ _ _ (by simp [isClone]) hD h3
    rw [osChdir_fs] at h4
    exact hd h4
  unfold buildRelease
  simp only []
  split_ifs with h1 h2 h3 h4
  · refine ⟨_, by simp only [osExec_trace, osChdir_trace, List.append_assoc]; rfl, ?_⟩
    simp [freshTarget]
  · refine ⟨_, by simp only [osExec_trace, osChdir_trace, List.append_assoc]; rfl, ?_⟩
    simp [freshTarget]
  · refine ⟨_, by simp only [osExec_trace, osChdir_trace, osRemove_trace,
      List.append_assoc]; rfl, ?_⟩
    simp [freshTarget]
  · refine ⟨_, by simp only [osExec_trace, osChdir_trace, osRemove_trace, osRename_trace,
      List.append_assoc]; rfl, ?_⟩
    simpa [freshTarget] using key
  · refine ⟨_, by simp only [osExec_trace, osChdir_trace, osRemove_trace, osRename_trace,
      List.append_assoc]; rfl, ?_⟩
    simpa [freshTarget] using key

theorem fresh_rules {env : Env} {D : List String} (hc : NoCommandCreates env D) :
    RunRules env (Always (freshTarget D)) :=
  always_runRules _ env (by simp [freshTarget]) (by simp [freshTarget])
    (by simp [freshTarget]) (by simp [freshTarget])
    (fun remote sw w => ensureCloned_always _ env remote sw w (by simp [freshTarget])
      (by simp [freshTarget]))
    (fun name sw dst t w hd => buildRelease_fresh hc name sw dst t w hd)

theorem osRemove_fs_keep {env : Env} {D : List String} (hk : NothingRemoves env D)
    (n : String) (w : World) : ∀ p ∈ D, p ∈ w.fs → p ∈ (osRemove env n w).fs := by
  intro p hD hp
  unfold osRemove
  simp only []
  split_ifs with h
  · simp only [fs_emit, List.mem_filter, hp, true_and, decide_eq_true_eq]
    intro heq
    subst heq
    rw [hk.2.1 _ _ hD] at h
    simp at h
  · exact hp

theorem osRename_fs_keep {env : Env} {D : List String} (hk : NothingRemoves env D)
    (src dst : String) (w : World) : ∀ p ∈ D, p ∈ w.fs → p ∈ (osRename env src dst w).2.fs := by
  intro p hD hp
  unfold osRename
  simp only []
  split_ifs with h
  · simp only [fs_emit, List.mem_cons, List.mem_filter, hp, true_and, decide_eq_true_eq]
    right
    intro heq
    subst heq
    rw [hk.2.2 _ _ _ hD] at h
    simp at h
  · exact hp

theorem osRename_fs_dst (env : Env) (src dst : String) (w : World)
    (h : (osRename env src dst w).1 = true) : dst ∈ (osRename env src dst w).2.fs := by
  unfold osRename at h ⊢
  simp only [] at h ⊢
  split_ifs at h ⊢
  simp

theorem kept_seq (D : List String) (w w1 w2 : World) (o : Option Fatal)
    (h1 : Kept D w none w1) (h2 : Kept D w1 o w2) : Kept D w o w2 := by
  obtain ⟨d1, e1, p1, a1, b1, c1⟩ := h1
  obtain ⟨d2, e2, p2, a2, b2, c2⟩ := h2
  refine ⟨d1 ++ d2, by rw [e2, e1, List.append_assoc], fun p hD hp => p2 p hD (p1 p hD hp),
    ?_, ?_, ?_⟩
  · intro p hp hD
    rw [relocations_append] at hp
    rcases List.mem_append.1 hp with hp | hp
    · exact a1 p hp hD
    · exact fun hw => a2 p hp hD (p1 p hD hw)
  · intro ho p hp hD
    rw [relocations_append] at hp
    rcases List.mem_append.1 hp with hp | hp
    · exact p2 p hD (b1 rfl p hp hD)
    · exact b2 ho p hp hD
  · intro hall
    rw [relocations_append] at hall ⊢
    have hall1 : ∀ p ∈ relocations d1, p ∈ D := fun p hp => hall p (List.mem_append_left _ hp)
    have hall2 : ∀ p ∈ relocations d2, p ∈ D := fun p hp => hall p (List.mem_append_right _ hp)
    refine List.nodup_append.2 ⟨c1 hall1, c2 hall2, ?_⟩
    intro p hp1 hp2
    exact a2 p hp2 (hall2 p hp2) (b1 rfl p hp1 (hall1 p hp1))

theorem kept_of_quiet (D : List String) (w w' : World) (o : Option Fatal) (d : List Event)
    (htr : w'.trace = w.trace ++ d) (hfs : ∀ p ∈ D, p ∈ w.fs → p ∈ w'.fs)
    (hrel : relocations d = []) : Kept D w o w' :=
  ⟨d, htr, hfs, by simp [hrel], by simp [hrel], by simp [hrel]⟩

theorem buildRelease_kept {env : Env} {D : List String} (hk : NothingRemoves env D)
    (name sw dst t : String) (w : World) (hd : dst ∉ w.fs) :
    Kept D w (buildRelease env name sw dst t w).1.reason
      (buildRelease env name sw dst t w).2 := by
  have k1 : ∀ p ∈ D, p ∈ w.fs → p ∈ (osExec env ["git", "checkout", "-f", t]
      (osChdir env sw w)).2.fs := by
    intro p hD hp
    rw [osExec_fs]
    exact hk.1 _ _ _ hD (by rw [osChdir_fs]; exact hp)
  have k2 : ∀ p ∈ D, p ∈ w.fs → p ∈ (osExec env ["git", "clean", "-f", t]
      (osExec env ["git", "checkout", "-f", t] (osChdir env sw w)).2).2.fs := by
    intro p hD hp
    rw [osExec_fs]
    exact hk.1 _ _ _ hD (k1 p hD hp)
  have k3 : ∀ p ∈ D, p ∈ w.fs → p ∈ (osRemove env "Makefile.new"
      (osExec env (buildCommand name t) (osExec env ["git", "clean", "-f", t]
        (osExec env ["git", "checkout", "-f", t] (osChdir env sw w)).2).2).2).fs := by
    intro p hD hp
    refine osRemove_fs_keep hk _ _ p hD ?_
    rw [osExec_fs]
    exact hk.1 _ _ _ hD (k2 p hD hp)
  unfold buildRelease
  simp only []
  split_ifs with h1 h2 h3 h4
  · exact kept_of_quiet D _ _ _ _ (by simp only [osExec_trace, osChdir_trace, List.append_assoc]; rfl) k1 (by simp [relocations])
  · exact kept_of_quiet D _ _ _ _ (by simp only [osExec_trace, osChdir_trace, List.append_assoc]; rfl) k2 (by simp [relocations])
  · exact kept_of_quiet D _ _ _ _ (by simp only [osExec_trace, osChdir_trace, osRemove_trace, List.append_assoc]; rfl) k3 (by simp [relocations])
  · refine ⟨_, by simp only [osExec_trace, osChdir_trace, osRemove_trace, osRename_trace,
      List.append_assoc]; rfl, fun p hD hp => osRename_fs_keep hk _ _ _ p hD (k3 p hD hp),
      ?_, ?_, ?_⟩
    · simp [relocations, hd]
    · simp [Outcome.reason]
    · simp [relocations]
  · refine ⟨_, by simp only [osExec_trace, osChdir_trace, osRemove_trace, osRename_trace,
      List.append_assoc]; rfl, fun p hD hp => osRename_fs_keep hk _ _ _ p hD (k3 p hD hp),
      ?_, ?_, ?_⟩
    · simp [relocations, hd]
    · intro _
      simp only [relocations, List.append_nil, List.nil_append, relocations_append,
        List.mem_singleton]
      intro p hp _
      subst hp
      exact osRename_fs_dst env _ _ _ (by simpa using h4)
    · simp [relocations]

theorem ensureCloned_kept {env : Env} {D : List String} (hk : NothingRemoves env D)
    (remote sw : String) (w : World) :
    Kept D w (ensureCloned env remote sw w).1.reason (ensureCloned env remote sw w).2 := by
  unfold ensureCloned
  simp only []
  split_ifs with h1 h2
  · exact kept_of_quiet D _ _ _ _ (by simp only [osStat_snd, trace_emit]; rfl)
      (fun p _ hp => hp) (by simp [relocations])
  · exact kept_of_quiet D _ _ _ _ (by simp only [osExec_trace, osStat_snd, trace_emit, List.append_assoc]; rfl) (fun p hD hp => hk.1 _ _ _ hD hp) (by simp [relocations])
  · exact kept_of_quiet D _ _ _ _ (by simp only [osExec_trace, osStat_snd, trace_emit, List.append_assoc]; rfl) (fun p hD hp => hk.1 _ _ _ hD hp) (by simp [relocations])

theorem kept_rules {env : Env} {D : List String} (hk : NothingRemoves env D) :
    RunRules env (Kept D) where
  refl w := kept_of_quiet D w w _ [] (by simp) (fun _ _ hp => hp) rfl
  seq := kept_seq D
  invalid w name i := kept_of_quiet D w w _ [] (by simp) (fun _ _ hp => hp) rfl
  stat p w := kept_of_quiet D _ _ _ _ (by simp only [osStat_snd, trace_emit]; rfl)
    (fun _ _ hp => hp) (by simp [relocations])
  build name sw dst t w hd := buildRelease_kept hk name sw dst t w hd
  getwd w := kept_of_quiet D w w _ [] (by simp) (fun _ _ hp => hp) rfl
  mkdirAll p w := kept_of_quiet D _ _ _ _ (osMkdirAll_trace env p w)
    (fun q _ hq => osMkdirAll_fs_mono env p w q hq) (by simp [relocations])
  chdir p w := kept_of_quiet D _ _ _ _ (osChdir_trace env p w)
    (fun q _ hq => by rw [osChdir_fs]; exact hq) (by simp [relocations])
  clone remote sw w := ensureCloned_kept hk remote sw w
  write p c w := by
    refine kept_of_quiet D _ _ _ _ (osWriteFile_trace env p c w) ?_ (by simp [relocations])
    intro q _ hq
    unfold osWriteFile
    split_ifs <;> simp [hq]

theorem builtThenMoved_append (a b : List Event) (ha : builtThenMoved a = true)
    (hb : builtThenMoved b = true) : builtThenMoved (a ++ b) = true := by
  induction a with
  | nil => simpa using hb
  | cons e rest ih =>
    cases e with
    | exec dir argv ok =>
      cases ok with
      | false => simpa [builtThenMoved] using ih (by simpa [builtThenMoved] using ha)
      | true =>
        simp only [builtThenMoved, Bool.and_eq_true, Bool.or_eq_true, Bool.not_eq_true'] at ha
        simp only [List.cons_append, builtThenMoved, Bool.and_eq_true, Bool.or_eq_true,
          Bool.not_eq_true']
        refine ⟨?_, ih ha.2⟩
        rcases ha.1 with h | h
        · exact Or.inl h
        · right
          match rest, h with
          | .remove _ _ :: .rename _ _ _ _ :: _, _ => rfl
    | _ => simpa [builtThenMoved] using ih (by simpa [builtThenMoved] using ha)

theorem buildRelease_moved (env : Env) (name sw dst t : String) (w : World) :
    Moved w (buildRelease env name sw dst t w).1.reason (buildRelease env name sw dst t w).2 := by
  unfold buildRelease
  simp only []
  split_ifs with h1 h2 h3 h4
  · refine ⟨_, by simp only [osExec_trace, osChdir_trace, List.append_assoc]; rfl, ?_⟩
    simp [builtThenMoved, h1]
  · refine ⟨_, by simp only [osExec_trace, osChdir_trace, List.append_assoc]; rfl, ?_⟩
    have e1 : (osExec env ["git", "checkout", "-f", t] (osChdir env sw w)).1 = true := by
      simpa using h1
    simp [builtThenMoved, h2, e1, isBuild]
  · refine ⟨_, by simp only [osExec_trace, osChdir_trace, osRemove_trace,
      List.append_assoc]; rfl, ?_⟩
    have e1 : (osExec env ["git", "checkout", "-f", t] (osChdir env sw w)).1 = true := by
      simpa using h1
    have e2 : (osExec env ["git", "clean", "-f", t]
        (osExec env ["git", "checkout", "-f", t] (osChdir env sw w)).2).1 = true := by
      simpa using h2
    simp [builtThenMoved, h3, e1, e2, isBuild]
  · refine ⟨_, by simp only [osExec_trace, osChdir_trace, osRemove_trace, osRename_trace,
      List.append_assoc]; rfl, ?_⟩
    have e1 : (osExec env ["git", "checkout", "-f", t] (osChdir env sw w)).1 = true := by
      simpa using h1
    have e2 : (osExec env ["git", "clean", "-f", t]
        (osExec env ["git", "checkout", "-f", t] (osChdir env sw w)).2).1 = true := by
      simpa using h2
    have e3 : (osExec env (buildCommand name t) (osExec env ["git", "clean", "-f", t]
        (osExec env ["git", "checkout", "-f", t] (osChdir env sw w)).2).2).1 = true := by
      simpa using h3
    simp [builtThenMoved, e1, e2, e3, isBuild]
  · refine ⟨_, by simp only [osExec_trace, osChdir_trace, osRemove_trace, osRename_trace,
      List.append_assoc]; rfl, ?_⟩
    have e1 : (osExec env ["git", "checkout", "-f", t] (osChdir env sw w)).1 = true := by
      simpa using h1
    have e2 : (osExec env ["git", "clean", "-f", t]
        (osExec env ["git", "checkout", "-f", t] (osChdir env sw w)).2).1 = true := by
      simpa using h2
    have e3 : (osExec env (buildCommand name t) (osExec env ["git", "clean", "-f", t]
        (osExec env ["git", "checkout", "-f", t] (osChdir env sw w)).2).2).1 = true := by
      simpa using h3
    simp [builtThenMoved, e1, e2, e3, isBuild]

theorem builtThenMoved_git (dir : String) (argv : List String) (ok : Bool) (rest : List Event)
    (h : isBuild argv = false) :
    builtThenMoved (.exec dir argv ok :: rest) = builtThenMoved rest := by
  cases ok <;> simp [builtThenMoved, h]

theorem ensureCloned_moved (env : Env) (remote sw : String) (w : World) :
    Moved w (ensureCloned env remote sw w).1.reason (ensureCloned env remote sw w).2 := by
  unfold ensureCloned
  simp only []
  split_ifs with h1 h2
  · exact ⟨_, by simp only [osStat_snd, trace_emit]; rfl, by simp [builtThenMoved]⟩
  · refine ⟨_, by simp only [osExec_trace, osStat_snd, trace_emit, List.append_assoc]; rfl, ?_⟩
    simp only [List.cons_append, List.nil_append, builtThenMoved]
    exact builtThenMoved_git _ _ _ _ (by simp [isBuild])
  · refine ⟨_, by simp only [osExec_trace, osStat_snd, trace_emit, List.append_assoc]; rfl, ?_⟩
    simp only [List.cons_append, List.nil_append, builtThenMoved]
    exact builtThenMoved_git _ _ _ _ (by simp [isBuild])

theorem moved_rules (env : Env) : RunRules env Moved where
  refl w := ⟨[], by simp, rfl⟩
  seq w w1 w2 o h1 h2 := by
    obtain ⟨d1, e1, a1⟩ := h1
    obtain ⟨d2, e2, a2⟩ := h2
    exact ⟨d1 ++ d2, by rw [e2, e1, List.append_assoc], builtThenMoved_append d1 d2 a1 a2⟩
  invalid w name i := ⟨[], by simp, rfl⟩
  stat p w := ⟨_, by simp only [osStat_snd, trace_emit]; rfl, by simp [builtThenMoved]⟩
  build name sw dst t w _ := buildRelease_moved env name sw dst t w
  getwd w := ⟨[], by simp, rfl⟩
  mkdirAll p w := ⟨_, osMkdirAll_trace env p w, by simp [builtThenMoved]⟩
  chdir p w := ⟨_, osChdir_trace env p w, by simp [builtThenMoved]⟩
  clone remote sw w := ensureCloned_moved env remote sw w
  write p c w := ⟨_, osWriteFile_trace env p c w, by simp [builtThenMoved]⟩

theorem mem_relocations_of_rename {d : List Event} {src dst : String} {existed ok : Bool}
    (h : Event.rename src dst existed ok ∈ d) : dst ∈ relocations d := by
  induction d with
  | nil => simp at h
  | cons e rest ih =>
    rcases List.mem_cons.1 h with h | h
    · subst h; simp [relocations]
    · have := ih h
      cases e <;> simp [relocations, this]

/-- C10 (as amended): assume that none of the commands run for a release after its
destination was examined (`git checkout`, `git clean`, the build) creates a path this run of
`processConfig` relocates to.  Then every `os.Rename` of the run finds nothing at its
destination, and every build that succeeded is followed at once by the relocation of its
output.  If moreover nothing takes such a path away during the run (no command deletes it,
it is not what `os.Remove` removes or what `os.Rename` moves away), then no relocation goes
to a path that existed before the run, and no two relocations of the run go to the same
path. -/
theorem relocations_onto_absent_once (env : Env) (config : specsConfig) (w : World)
    (hcreate : NoCommandCreates env (relocations ((processConfig env config w).2.since w))) :
    (∀ src dst existed ok,
        Event.rename src dst existed ok ∈ (processConfig env config w).2.since w →
        existed = false) ∧
      builtThenMoved ((processConfig env config w).2.since w) = true ∧
      (NothingRemoves env (relocations ((processConfig env config w).2.since w)) →
        (∀ p ∈ relocations ((processConfig env config w).2.since w), p ∉ w.fs) ∧
        (relocations ((processConfig env config w).2.since w)).Nodup) := by
  refine ⟨?_, ?_, ?_⟩
  · intro src dst existed ok hmem
    obtain ⟨d, hd, hf⟩ := processConfig_sound (fresh_rules hcreate) config w
    rw [since_eq hd] at hmem
    have := hf _ hmem
    simp only [freshTarget] at this
    refine this ?_
    rw [since_eq hd]
    exact mem_relocations_of_rename hmem
  · obtain ⟨d, hd, hm⟩ := processConfig_sound (moved_rules env) config w
    rw [since_eq hd]
    exact hm
  · intro hk
    obtain ⟨d, hd, _, ha, _, hc⟩ := processConfig_sound (kept_rules hk) config w
    rw [since_eq hd] at ha hc ⊢
    exact ⟨fun p hp => ha p hp hp, hc (fun p hp => hp)⟩

theorem calmEnv_noCreate (D : List String) (hD : ∀ p ∈ D, published p = true) :
    NoCommandCreates calmEnv D := by
  intro w argv p _ hp hmem
  simp only [calmEnv, List.mem_append, List.mem_filter] at hmem
  rcases hmem with h | ⟨_, h⟩
  · exact h
  · simp [hD p hp] at h

theorem noBuildCreates_of_calm {env : Env}
    (h : ∀ w argv, isBuild argv = true → env.exec w argv = calmEnv.exec w argv)
    (D : List String) (hD : ∀ p ∈ D, published p = true) : NoBuildCreates env D := by
  intro w argv p hb hp hmem
  rw [h w argv hb] at hmem
  simp only [calmEnv, List.mem_append, List.mem_filter] at hmem
  rcases hmem with h | ⟨_, h⟩
  · exact h
  · simp [hD p hp] at h

theorem wipingEnv_build (w : World) (argv : List String) (hb : isBuild argv = true) :
    wipingEnv.exec w argv = calmEnv.exec w argv := by
  have hne : argv.take 2 ≠ ["git", "checkout"] := by
    intro h
    cases argv with
    | nil => simp at h
    | cons a rest =>
      cases rest with
      | nil => simp at h
      | cons b rest =>
        simp only [List.take_succ_cons, List.take_zero, List.cons.injEq, and_true] at h
        rw [h.1] at hb
        simp [isBuild] at hb
  simp only [wipingEnv, if_neg hne]

theorem plantingEnv_build (w : World) (argv : List String) (hb : isBuild argv = true) :
    plantingEnv.exec w argv = calmEnv.exec w argv := by
  simp only [plantingEnv]
  split
  · simp [isBuild] at hb
  · rfl

theorem calmEnv_nothingRemoves (D : List String) (hD : ∀ p ∈ D, published p = true) :
    NothingRemoves calmEnv D := by
  refine ⟨?_, ?_, ?_⟩
  · intro w argv p _ hmem
    simp only [calmEnv, List.mem_append]
    exact Or.inl hmem
  · intro w p hp
    simp [calmEnv, hD p hp]
  · intro w src dst hp
    simp [calmEnv, hD src hp]

/-- Witness for C10: the run of the sample configuration, whose second spec lists the
checkout target `v1.0.0` twice, in a fresh world. -/
theorem relocations_onto_absent_once_witness :
    relocations ((processConfig calmEnv sampleConfig freshWorld).2.since freshWorld)
        = ["/site/docs/specs/image/v3", "/site/docs/specs/image/v2",
           "/site/docs/specs/image/v1", "/site/docs/specs/runtime/v1.0.0"] ∧
      (∀ src dst existed ok,
        Event.rename src dst existed ok
            ∈ (processConfig calmEnv sampleConfig freshWorld).2.since freshWorld →
          existed = false) ∧
      (∀ p ∈ relocations ((processConfig calmEnv sampleConfig freshWorld).2.since freshWorld),
        p ∉ freshWorld.fs) ∧
      (relocations ((processConfig calmEnv sampleConfig freshWorld).2.since freshWorld)).Nodup :=
  ⟨by decide,
   (relocations_onto_absent_once calmEnv sampleConfig freshWorld
      (calmEnv_noCreate _ (by decide))).1,
   (relocations_onto_absent_once calmEnv sampleConfig freshWorld
      (calmEnv_noCreate _ (by decide))).2.2 (calmEnv_nothingRemoves _ (by decide))⟩

/-- C10 as first stated fails.  In `wipingEnv` no build creates a destination, `git checkout`
wipes the published tree: for the releases `v1, v2, v1`, with `v2` published before the
run, the run completes, every relocation finds nothing at its destination, and yet the
relocations go to `v1`, `v2`, `v1`: to a path that existed before the run, and twice to the
same path.  In `plantingEnv` no build creates a destination either, `git checkout` does:
the output of `v1` is relocated onto a path at which something exists. -/
theorem relocations_repeat_after_wipe :
    (NoBuildCreates wipingEnv ["/site/docs/specs/image/v1", "/site/docs/specs/image/v2"] ∧
      "/site/docs/specs/image/v2" ∈ publishedWorld.fs ∧
      (processConfig wipingEnv repeatedConfig publishedWorld).1 = .ok () ∧
      (∀ e ∈ (processConfig wipingEnv repeatedConfig publishedWorld).2.since publishedWorld,
        e.ontoExisting = false) ∧
      relocations ((processConfig wipingEnv repeatedConfig publishedWorld).2.since publishedWorld)
        = ["/site/docs/specs/image/v1", "/site/docs/specs/image/v2",
           "/site/docs/specs/image/v1"] ∧
      ¬ (relocations
          ((processConfig wipingEnv repeatedConfig publishedWorld).2.since publishedWorld)).Nodup) ∧
    (NoBuildCreates plantingEnv ["/site/docs/specs/image/v1", "/site/docs/specs/image/v2"] ∧
      Event.rename "/site/docs/git-workspace/image-spec/output" "/site/docs/specs/image/v1"
          true true
        ∈ (processConfig plantingEnv repeatedConfig freshWorld).2.since freshWorld) := by
  exact ⟨⟨noBuildCreates_of_calm wipingEnv_build _ (by decide), by decide, by decide,
    by decide, by decide, by decide⟩,
    noBuildCreates_of_calm plantingEnv_build _ (by decide), by decide⟩

end SpecsLatest
